import Mathlib

/-!
Verification of the nsec-cache-datastore name/codec core.

Shallow embedding of the Python modules `nsecchain/encoder.py`,
`nsecchain/decoder.py`, `nsecchain/ordering.py` and
`nsecchain/parser.py`.  Python `str` is modelled as `List Char`,
Python `bytes` as `List Nat` (each element `< 256`).  Case mapping
models Python `str.lower` / `str.upper` on the ASCII names this
scheme manipulates, via `Char.toLower` / `Char.toUpper`.
Fallible operations return `Option`.
-/

namespace NsecChain

/-- Fixed-size chunking with fuel (model of Python slicing
`[l[i:i+k] for i in range(0, len(l), k)]`, for `k > 0`). -/
def chunksOfAux (k : Nat) : Nat → List α → List (List α)
  | 0, _ => []
  | fuel+1, l => if l.isEmpty then [] else l.take k :: chunksOfAux k fuel (l.drop k)

/-- Fixed-size chunking of a list, last chunk possibly shorter. -/
def chunksOf (k : Nat) (l : List α) : List (List α) :=
  chunksOfAux k l.length l

/-- Big-endian bit representation of `n` with width `w`. -/
def natToBits : Nat → Nat → List Bool
  | 0, _ => []
  | w+1, n => n.testBit w :: natToBits w n

/-- Value of a big-endian bit string. -/
def bitsToNat (l : List Bool) : Nat :=
  l.foldl (fun a b => 2 * a + (if b then 1 else 0)) 0

/-- Remove the longest suffix whose elements satisfy `p`
(model of Python `rstrip`). -/
def rstripBy (p : α → Bool) (l : List α) : List α :=
  (l.reverse.dropWhile p).reverse

/-- Model of Python `s.rstrip('.')`. -/
def rstripDots (l : List Char) : List Char :=
  rstripBy (fun c => c == '.') l

/-- Model of Python `s.split('.')`. -/
def splitOnDot : List Char → List (List Char)
  | [] => [[]]
  | c :: rest =>
    if c = '.' then [] :: splitOnDot rest
    else
      match splitOnDot rest with
      | [] => [[c]]
      | g :: gs => (c :: g) :: gs

/-- Model of Python joining labels with a dot separator. -/
def joinDots : List (List Char) → List Char
  | [] => []
  | [l] => l
  | l :: ls => l ++ '.' :: joinDots ls

/-- Lexicographic comparison by code point
(model of Python `<` on strings). -/
def strLt : List Char → List Char → Bool
  | [], [] => false
  | [], _ :: _ => true
  | _ :: _, [] => false
  | a :: as, b :: bs =>
    if a.toNat < b.toNat then true
    else if b.toNat < a.toNat then false
    else strLt as bs

/-- Little-endian decimal digits of `n`, with fuel. -/
def natDigitsAux : Nat → Nat → List Nat
  | 0, _ => []
  | fuel+1, n => if n < 10 then [n] else n % 10 :: natDigitsAux fuel (n / 10)

/-- Big-endian decimal digits of `n` (nonempty, `0 ↦ [0]`). -/
def natDecimalDigits (n : Nat) : List Nat :=
  (natDigitsAux (n+1) n).reverse

/-- Model of the Python index format string (width-4 zero padding) for
`i ≥ 0`: decimal digits, left-padded with zeros to at least width 4,
never truncated. -/
def formatIndex (i : Nat) : List Char :=
  let ds := (natDecimalDigits i).map Nat.digitChar
  List.replicate (4 - ds.length) '0' ++ ds

/-- Model of Python `int` on a (nonempty) decimal digit string. -/
def digitsToNat (ds : List Char) : Nat :=
  ds.foldl (fun a c => 10 * a + (c.toNat - 48)) 0

/-- The decimal digits of `i` left-padded with zeros to width 4
(the digit-list view of `formatIndex`). -/
def padDigits4 (i : Nat) : List Nat :=
  List.replicate (4 - (natDecimalDigits i).length) 0 ++ natDecimalDigits i

/-- MSB-first value of a decimal digit list (specification helper). -/
def valMSB (ds : List Nat) : Nat :=
  ds.foldl (fun a d => 10 * a + d) 0

/-- The RFC 4648 base32 alphabet, as used by `base64.b32encode`. -/
def b32alphabet : List Char :=
  ['A','B','C','D','E','F','G','H','I','J','K','L','M','N','O','P',
   'Q','R','S','T','U','V','W','X','Y','Z','2','3','4','5','6','7']

/-- The bit stream of a byte string (8 bits per byte, big-endian). -/
def b32bodyBits (bs : List Nat) : List Bool :=
  (bs.map (natToBits 8)).flatten

/-- The number of zero bits padding the bit stream to a 5-bit boundary. -/
def b32padLen (bs : List Nat) : Nat :=
  (5 - (b32bodyBits bs).length % 5) % 5

/-- The zero-padded bit stream of a byte string. -/
def b32fullBits (bs : List Nat) : List Bool :=
  b32bodyBits bs ++ List.replicate (b32padLen bs) false

/-- The base32 characters of a byte string, before `=` padding. -/
def b32chars (bs : List Nat) : List Char :=
  (chunksOf 5 (b32fullBits bs)).map (fun g => b32alphabet.getD (bitsToNat g) 'A')

/-- Model of Python `base64.b32encode` (RFC 4648): 5-bit groups of the
byte stream, zero-padded to a 5-bit boundary, then `=`-padded to an
8-character quantum. -/
def b32encode (bs : List Nat) : List Char :=
  let bits := (bs.map (natToBits 8)).flatten
  let bits := bits ++ List.replicate ((5 - bits.length % 5) % 5) false
  let cs := (chunksOf 5 bits).map (fun g => b32alphabet.getD (bitsToNat g) 'A')
  cs ++ List.replicate ((8 - cs.length % 8) % 8) '='

/-- Model of Python `base64.b32decode` (strict, no casefold): requires
an 8-character-aligned input, strips the trailing `=` padding, requires
alphabet characters only and a legal padding amount, then reassembles
the 5-bit groups and keeps the whole bytes. -/
def b32decode (s : List Char) : Option (List Nat) :=
  if s.length % 8 ≠ 0 then none
  else
    let body := rstripBy (fun c => c == '=') s
    let padchars := s.length - body.length
    if ¬ (body.all (fun c => b32alphabet.contains c)) then none
    else if ¬ (padchars = 0 ∨ padchars = 1 ∨ padchars = 3 ∨ padchars = 4 ∨ padchars = 6) then none
    else
      let bits := (body.map (fun c => natToBits 5 (b32alphabet.indexOf c))).flatten
      some (((chunksOf 8 bits).map bitsToNat).take (bits.length / 8))

/-! encoder.py -/

/-- Model of `encoder.encode_chunk`: base32-encode, strip `=` padding, lowercase. -/
def encode_chunk (chunk : List Nat) : List Char :=
  (rstripBy (fun c => c == '=') (b32encode chunk)).map Char.toLower

/-- Model of `encoder.split_into_labels`: split an encoded string into
slices of at most `max_label_len` characters. -/
def split_into_labels (encoded : List Char) (max_label_len : Nat := 63) : List (List Char) :=
  if encoded.isEmpty then [] else chunksOf max_label_len encoded

/-- The filler byte `'_'` (0x5F). -/
def fillerByte : Nat := 95

/-- Model of `encoder.chunk_message`: split a message into `chunk_size`-byte
chunks, right-padding the last with `'_'`, and produce one all-filler
chunk for an empty message. -/
def chunk_message (message : List Nat) (chunk_size : Nat) : List (List Nat) :=
  let chunks := (chunksOf chunk_size message).map
    (fun c => c ++ List.replicate (chunk_size - c.length) fillerByte)
  if chunks.isEmpty then [List.replicate chunk_size fillerByte] else chunks

/-! decoder.py -/

/-- Model of `decoder.decode_labels`: drop dots, uppercase, re-pad with `=` to a
multiple of 8 characters, base32-decode (`none` models `ValueError`). -/
def decode_labels (labels : List Char) : Option (List Nat) :=
  let clean := labels.filter (fun c => c != '.')
  let clean := clean.map Char.toUpper
  let pad := (8 - clean.length % 8) % 8
  b32decode (clean ++ List.replicate pad '=')

/-- Model of `decoder.strip_padding`: strip trailing filler bytes. -/
def strip_padding (data : List Nat) (padding_char : Nat := 95) : List Nat :=
  rstripBy (fun b => b == padding_char) data

/-- Decode each chunk in order, failing if any chunk fails
(helper for `decode_payload_chunks`). -/
def decodeAll : List (List Char) → Option (List (List Nat))
  | [] => some []
  | c :: cs =>
    match decode_labels c, decodeAll cs with
    | some d, some ds => some (d :: ds)
    | _, _ => none

/-- Model of `decoder.decode_payload_chunks`: decode all chunks, concatenate,
strip trailing filler. -/
def decode_payload_chunks (encoded_chunks : List (List Char)) : Option (List Nat) :=
  match decodeAll encoded_chunks with
  | none => none
  | some ds => some (strip_padding ds.flatten)

/-! ordering.py -/

/-- Model of `ordering.node_name_for_index`:
`n{index:04d}.{payload}.{zone}` with optional trailing root dot. -/
def node_name_for_index (index : Nat) (encoded_payload : List Char)
    (zone : List Char) (absolute : Bool := true) : List Char :=
  let z := rstripDots zone
  let name := 'n' :: (formatIndex index ++ ('.' :: (encoded_payload ++ ('.' :: z))))
  if absolute then name ++ ['.'] else name

/-- Model of `ordering.in_gap_name`: `n{index:04d}{suffix}.{zone}` with optional
trailing root dot. -/
def in_gap_name (index : Nat) (zone : List Char) (sfx : List Char := ['z'])
    (absolute : Bool := true) : List Char :=
  let z := rstripDots zone
  let name := 'n' :: (formatIndex index ++ (sfx ++ ('.' :: z)))
  if absolute then name ++ ['.'] else name

/-- The verification suffix pool of `ordering.verification_in_gap_name`. -/
def verificationSuffixes : List Char := ['m','k','j','h','g','f','e','d','c','b']

/-- Model of `ordering.verification_in_gap_name`: in-gap name with the suffix
chosen round-robin from the verification pool. -/
def verification_in_gap_name (index : Nat) (zone : List Char) (variant : Nat := 0) : List Char :=
  in_gap_name index zone [verificationSuffixes.getD (variant % verificationSuffixes.length) 'm'] true

/-- Model of `ordering.is_name_between`: case-fold, strip trailing dots, then
strict string comparison `lower < name < upper`. -/
def is_name_between (name lower upper : List Char) : Bool :=
  let n := rstripDots (name.map Char.toLower)
  let lo := rstripDots (lower.map Char.toLower)
  let hi := rstripDots (upper.map Char.toLower)
  strLt lo n && strLt n hi

/-- Model of `ordering.parse_node_name`: strip trailing dots, lowercase, require
the `.zone` suffix, split the remainder on dots, require at least two
labels with the first matching `^n(\d+)$`, and return the index together
with the re-joined payload labels. -/
def parse_node_name (name zone : List Char) : Option (Nat × List Char) :=
  let z := rstripDots zone
  let n := (rstripDots name).map Char.toLower
  let zs := '.' :: z.map Char.toLower
  if zs.isSuffixOf n then
    let stem := n.take (n.length - zs.length)
    match splitOnDot stem with
    | p0 :: p1 :: rest =>
      match p0 with
      | c :: ds =>
        if c = 'n' ∧ ds ≠ [] ∧ ds.all Char.isDigit then
          some (digitsToNat ds, joinDots (p1 :: rest))
        else none
      | [] => none
    | _ => none
  else none

/-! parser.py -/

/-- Model of `parser.extract_payload_from_next_name`: lowercase, require the zone
as a character suffix of the dot-stripped name, strip a dot-separated
zone suffix when present, split on dots, require a first label starting
with `n` and at least two labels, and join the remaining labels. -/
def extract_payload_from_next_name (next_name zone : List Char) : Option (List Char) :=
  let name_str := next_name.map Char.toLower
  let z := rstripDots (zone.map Char.toLower)
  if z.isSuffixOf (rstripDots name_str) then
    let pre := rstripDots name_str
    let pre := if ('.' :: z).isSuffixOf pre then pre.take (pre.length - (z.length + 1)) else pre
    match splitOnDot pre with
    | l0 :: rest =>
      if l0.head? = some 'n' then
        if (l0 :: rest).length < 2 then none else some (joinDots rest)
      else none
    | [] => none
  else none

/-- The 11 in-gap names of one interval: the priming gap followed by the
ten verification gaps. -/
def gapNames (index : Nat) (zone : List Char) : List (List Char) :=
  in_gap_name index zone ['z'] true ::
    (List.range 10).map (fun v => verification_in_gap_name index zone v)

/-- The 11 gap suffix characters: priming `z` then the verification pool. -/
def gapSuffixChars : List Char := 'z' :: verificationSuffixes

/-- The demo zone `zone.test` used in concrete scenarios. -/
def zoneTest : List Char := ['z','o','n','e','.','t','e','s','t']

/-- The demo message `hello from nsec cache datastore` as bytes. -/
def helloMessage : List Nat :=
  [104,101,108,108,111,32,102,114,111,109,32,110,115,101,99,32,
   99,97,99,104,101,32,100,97,116,97,115,116,111,114,101]

/-- The name `nzone.test.`: ends with the characters of `zone.test`
but not with `.zone.test`. -/
def nzoneName : List Char := ['n','z','o','n','e','.','t','e','s','t','.']

/-- The case-folded, dot-stripped form in which the parser and the
extractor compare DNS names. -/
def normName (l : List Char) : List Char := rstripDots (l.map Char.toLower)

/-- The lowercase base32 alphabet characters `[a-z2-7]`. -/
def b32lower : List Char :=
  ['a','b','c','d','e','f','g','h','i','j','k','l','m','n','o','p',
   'q','r','s','t','u','v','w','x','y','z','2','3','4','5','6','7']

/-- Validity of a payload text per the spec: non-empty, labels separated
by single dots, no empty labels, all characters lowercase base32. -/
def ValidPayload (p : List Char) : Prop :=
  p ≠ [] ∧ ∀ l ∈ splitOnDot p, l ≠ [] ∧ ∀ c ∈ l, c ∈ b32lower

/-- Validity of a zone per the spec: non-empty, lowercase
(case-folding fixed point), no trailing dot. -/
def ValidZone (z : List Char) : Prop :=
  z ≠ [] ∧ (∀ c ∈ z, c.toLower = c) ∧ z.getLast? ≠ some '.'

/-! ### Generic list lemmas -/

theorem dropWhile_append_of_all {p : α → Bool} {a : List α} (b : List α)
    (h : ∀ x ∈ a, p x = true) :
    (a ++ b).dropWhile p = b.dropWhile p := by
  induction a with
  | nil => rfl
  | cons x xs ih =>
    simp only [List.cons_append, List.dropWhile_cons, h x (by simp)]
    exact ih fun y hy => h y (by simp [hy])

theorem dropWhile_head_false {p : α → Bool} {l : List α} {a : α}
    (hh : l.head? = some a) (ha : p a = false) : l.dropWhile p = l := by
  cases l with
  | nil => simp at hh
  | cons x xs =>
    simp only [List.head?_cons, Option.some_inj] at hh
    subst hh
    simp [List.dropWhile_cons, ha]

theorem head_of_dropWhile_false {p : α → Bool} {l : List α} {a : α}
    (hh : (l.dropWhile p).head? = some a) : p a = false := by
  induction l with
  | nil => rw [List.dropWhile_nil] at hh; simp at hh
  | cons x xs ih =>
    rw [List.dropWhile_cons] at hh
    by_cases hx : p x = true
    · exact ih (by simpa [hx] using hh)
    · rw [if_neg hx] at hh
      rw [List.head?_cons, Option.some_inj] at hh
      subst hh
      simpa using hx

theorem rstripBy_append_all {p : α → Bool} (l : List α) {t : List α}
    (h : ∀ x ∈ t, p x = true) : rstripBy p (l ++ t) = rstripBy p l := by
  unfold rstripBy
  rw [List.reverse_append, dropWhile_append_of_all _ (fun x hx => h x (by simpa using hx))]

theorem rstripBy_eq_self {p : α → Bool} {l : List α}
    (hlast : ∀ b, l.getLast? = some b → p b = false) :
    rstripBy p l = l := by
  unfold rstripBy
  cases hrev : l.reverse with
  | nil => simp [List.reverse_eq_nil_iff.mp hrev]
  | cons x xs =>
    have hx : l.getLast? = some x := by
      rw [← List.head?_reverse, hrev, List.head?_cons]
    have hd : List.dropWhile p (x :: xs) = x :: xs :=
      dropWhile_head_false List.head?_cons (hlast x hx)
    rw [hd, ← hrev, List.reverse_reverse]

theorem dropWhile_length_le (p : α → Bool) (l : List α) :
    (l.dropWhile p).length ≤ l.length := by
  induction l with
  | nil => simp
  | cons x xs ih =>
    rw [List.dropWhile_cons]
    by_cases hx : p x = true
    · simp only [hx, if_true]
      exact Nat.le_succ_of_le ih
    · simp [hx]

theorem rstripBy_ne_of_last {p : α → Bool} {l : List α} {a : α}
    (hl : l.getLast? = some a) (ha : p a = true) : rstripBy p l ≠ l := by
  intro heq
  have hlen : (rstripBy p l).length < l.length := by
    unfold rstripBy
    cases hrev : l.reverse with
    | nil =>
      rw [List.reverse_eq_nil_iff] at hrev
      subst hrev; simp at hl
    | cons x xs =>
      have hx : x = a := by
        have := List.head?_reverse l
        rw [hrev, List.head?_cons, hl, Option.some_inj] at this
        exact this
      subst hx
      rw [List.dropWhile_cons, if_pos ha]
      have h1 : (List.dropWhile p xs).length ≤ xs.length := dropWhile_length_le p xs
      have h2 : l.length = xs.length + 1 := by
        have := congrArg List.length hrev
        simpa using this
      simp only [List.length_reverse]
      omega
  rw [heq] at hlen
  omega

theorem getLast?_rstripBy_false {p : α → Bool} {l : List α} {b : α}
    (hb : (rstripBy p l).getLast? = some b) : p b = false := by
  unfold rstripBy at hb
  rw [← List.head?_reverse, List.reverse_reverse] at hb
  exact head_of_dropWhile_false hb

/-! ### String comparison lemmas -/

theorem strLt_irrefl (l : List Char) : strLt l l = false := by
  induction l with
  | nil => rfl
  | cons a as ih => simp [strLt, ih]

theorem strLt_append_left (p a b : List Char) :
    strLt (p ++ a) (p ++ b) = strLt a b := by
  induction p with
  | nil => rfl
  | cons c cs ih => simp [strLt, ih]

theorem strLt_cons_of_lt {a b : Char} (x y : List Char) (h : a.toNat < b.toNat) :
    strLt (a :: x) (b :: y) = true := by
  simp [strLt, h]

theorem char_eq_of_toNat_eq {c d : Char} (h : c.toNat = d.toNat) : c = d :=
  Char.eq_of_val_eq (UInt32.ext h)

theorem strLt_append_of_ne {a b : List Char} (x y : List Char)
    (hlen : a.length = b.length) (hne : a ≠ b) :
    strLt (a ++ x) (b ++ y) = strLt a b := by
  induction a generalizing b with
  | nil =>
    cases b with
    | nil => exact absurd rfl hne
    | cons d ds => simp at hlen
  | cons c cs ih =>
    cases b with
    | nil => simp at hlen
    | cons d ds =>
      by_cases hcd : c = d
      · subst hcd
        have hne' : cs ≠ ds := fun h => hne (by rw [h])
        have hlen' : cs.length = ds.length := by simpa using hlen
        simp [strLt, ih hlen' hne']
      · have hv : c.toNat ≠ d.toNat := fun h => hcd (char_eq_of_toNat_eq h)
        rcases Nat.lt_or_ge c.toNat d.toNat with hlt | hge
        · simp [strLt, hlt]
        · have hgt : d.toNat < c.toNat := Nat.lt_of_le_of_ne hge (Ne.symm hv)
          have : ¬ c.toNat < d.toNat := Nat.not_lt_of_lt hgt
          simp [strLt, this, hgt]

/-! ### splitOnDot / joinDots lemmas -/

theorem splitOnDot_cons_dot (rest : List Char) :
    splitOnDot ('.' :: rest) = [] :: splitOnDot rest := by
  simp [splitOnDot]

theorem splitOnDot_ne_nil (l : List Char) : splitOnDot l ≠ [] := by
  cases l with
  | nil => simp [splitOnDot]
  | cons c rest =>
    by_cases hc : c = '.'
    · simp [splitOnDot, hc]
    · simp only [splitOnDot, if_neg hc]
      cases splitOnDot rest <;> simp

theorem exists_splitOnDot_cons (l : List Char) :
    ∃ g gs, splitOnDot l = g :: gs := by
  cases hs : splitOnDot l with
  | nil => exact absurd hs (splitOnDot_ne_nil l)
  | cons g gs => exact ⟨g, gs, rfl⟩

theorem splitOnDot_cons_ne {c : Char} {rest g : List Char} {gs : List (List Char)}
    (hc : c ≠ '.') (hs : splitOnDot rest = g :: gs) :
    splitOnDot (c :: rest) = (c :: g) :: gs := by
  simp only [splitOnDot, if_neg hc, hs]

theorem splitOnDot_of_no_dot {l : List Char} (h : '.' ∉ l) : splitOnDot l = [l] := by
  induction l with
  | nil => rfl
  | cons c rest ih =>
    have hc : c ≠ '.' := fun hh => h (by simp [hh])
    have hrest : '.' ∉ rest := fun hh => h (by simp [hh])
    exact splitOnDot_cons_ne hc (ih hrest)

theorem splitOnDot_append_dot {a : List Char} (b : List Char) (h : '.' ∉ a) :
    splitOnDot (a ++ '.' :: b) = a :: splitOnDot b := by
  induction a with
  | nil => simp [splitOnDot]
  | cons c rest ih =>
    have hc : c ≠ '.' := fun hh => h (by simp [hh])
    have hrest : '.' ∉ rest := fun hh => h (by simp [hh])
    rw [List.cons_append, splitOnDot_cons_ne hc (ih hrest)]

theorem joinDots_cons (l : List Char) {ls : List (List Char)} (h : ls ≠ []) :
    joinDots (l :: ls) = l ++ '.' :: joinDots ls := by
  cases ls with
  | nil => exact absurd rfl h
  | cons m ms => rfl

theorem joinDots_splitOnDot (l : List Char) : joinDots (splitOnDot l) = l := by
  induction l with
  | nil => rfl
  | cons c rest ih =>
    by_cases hc : c = '.'
    · subst hc
      rw [splitOnDot_cons_dot, joinDots_cons _ (splitOnDot_ne_nil rest), ih]
      rfl
    · obtain ⟨g, gs, hs⟩ := exists_splitOnDot_cons rest
      rw [splitOnDot_cons_ne hc hs]
      rw [hs] at ih
      cases gs with
      | nil =>
        simp only [joinDots] at ih ⊢
        rw [ih]
      | cons g2 gs2 =>
        rw [joinDots_cons _ (by simp), List.cons_append]
        rw [joinDots_cons _ (by simp)] at ih
        rw [ih]

theorem splitOnDot_joinDots {ls : List (List Char)} (hne : ls ≠ [])
    (hdot : ∀ l ∈ ls, '.' ∉ l) : splitOnDot (joinDots ls) = ls := by
  induction ls with
  | nil => exact absurd rfl hne
  | cons l rest ih =>
    cases rest with
    | nil =>
      simp only [joinDots]
      exact splitOnDot_of_no_dot (hdot l (by simp))
    | cons m ms =>
      rw [joinDots_cons _ (by simp)]
      rw [splitOnDot_append_dot _ (hdot l (by simp))]
      rw [ih (by simp) (fun x hx => hdot x (by simp [hx]))]

theorem no_dot_of_mem_splitOnDot {l : List Char} {g : List Char}
    (hg : g ∈ splitOnDot l) : '.' ∉ g := by
  induction l generalizing g with
  | nil =>
    simp only [splitOnDot, List.mem_singleton] at hg
    subst hg; simp
  | cons c rest ih =>
    by_cases hc : c = '.'
    · subst hc
      rw [splitOnDot_cons_dot] at hg
      rcases List.mem_cons.mp hg with hg1 | hg1
      · subst hg1; simp
      · exact ih hg1
    · obtain ⟨g0, gs, hs⟩ := exists_splitOnDot_cons rest
      rw [splitOnDot_cons_ne hc hs] at hg
      rcases List.mem_cons.mp hg with hg1 | hg1
      · subst hg1
        intro hmem
        rcases List.mem_cons.mp hmem with hh | hh
        · exact hc hh.symm
        · exact ih (hs ▸ List.mem_cons_self g0 gs) hh
      · exact ih (hs ▸ List.mem_cons_of_mem g0 hg1)

theorem chars_of_splitOnDot {l : List Char} {P : Char → Prop}
    (h : ∀ g ∈ splitOnDot l, ∀ c ∈ g, P c) :
    ∀ c ∈ l, c = '.' ∨ P c := by
  induction l with
  | nil => intro c hc; simp at hc
  | cons x rest ih =>
    intro c hc
    by_cases hx : x = '.'
    · subst hx
      rw [splitOnDot_cons_dot] at h
      rcases List.mem_cons.mp hc with hcx | hcr
      · exact Or.inl hcx
      · exact ih (fun g hg cc hcc => h g (List.mem_cons_of_mem _ hg) cc hcc) c hcr
    · obtain ⟨g0, gs, hs⟩ := exists_splitOnDot_cons rest
      rw [splitOnDot_cons_ne hx hs] at h
      rcases List.mem_cons.mp hc with hcx | hcr
      · subst hcx
        exact Or.inr (h (c :: g0) (by simp) c (by simp))
      · refine ih (fun g hg cc hcc => ?_) c hcr
        rw [hs] at hg
        rcases List.mem_cons.mp hg with hgg | hgg
        · subst hgg
          exact h (x :: g) (by simp) cc (by simp [hcc])
        · exact h g (List.mem_cons_of_mem _ hgg) cc hcc

/-! ### chunksOf lemmas -/

theorem chunksOfAux_nil (k f : Nat) : chunksOfAux k f ([] : List α) = [] := by
  cases f <;> simp [chunksOfAux]

theorem chunksOfAux_congr {k : Nat} (hk : 0 < k) :
    ∀ f g (l : List α), l.length ≤ f → l.length ≤ g →
      chunksOfAux k f l = chunksOfAux k g l := by
  intro f
  induction f with
  | zero =>
    intro g l hf _
    have : l = [] := List.eq_nil_of_length_eq_zero (Nat.le_zero.mp hf)
    subst this
    rw [chunksOfAux_nil, chunksOfAux_nil]
  | succ f ih =>
    intro g l hf hg
    cases g with
    | zero =>
      have : l = [] := List.eq_nil_of_length_eq_zero (Nat.le_zero.mp hg)
      subst this
      rw [chunksOfAux_nil, chunksOfAux_nil]
    | succ g =>
      cases l with
      | nil => rw [chunksOfAux_nil, chunksOfAux_nil]
      | cons x xs =>
        simp only [chunksOfAux, List.isEmpty_cons, if_false, Bool.false_eq_true]
        have hlen1 : (List.drop k (x :: xs)).length ≤ f := by
          rw [List.length_drop, List.length_cons]
          simp only [List.length_cons] at hf
          omega
        have hlen2 : (List.drop k (x :: xs)).length ≤ g := by
          rw [List.length_drop, List.length_cons]
          simp only [List.length_cons] at hg
          omega
        rw [ih g (List.drop k (x :: xs)) hlen1 hlen2]

theorem chunksOf_nil (k : Nat) : chunksOf k ([] : List α) = [] := rfl

theorem chunksOf_cons_eq {k : Nat} (hk : 0 < k) {l : List α} (hl : l ≠ []) :
    chunksOf k l = l.take k :: chunksOf k (l.drop k) := by
  unfold chunksOf
  cases l with
  | nil => exact absurd rfl hl
  | cons x xs =>
    simp only [List.length_cons, chunksOfAux, List.isEmpty_cons, if_false, Bool.false_eq_true]
    refine congrArg _ (chunksOfAux_congr hk xs.length _ _ ?_ ?_) <;>
      rw [List.length_drop] <;> simp <;> omega

theorem flatten_chunksOf {k : Nat} (hk : 0 < k) (l : List α) :
    (chunksOf k l).flatten = l := by
  have main : ∀ n (l : List α), l.length ≤ n → (chunksOf k l).flatten = l := by
    intro n
    induction n with
    | zero =>
      intro l h
      have : l = [] := List.eq_nil_of_length_eq_zero (Nat.le_zero.mp h)
      subst this; rfl
    | succ n ih =>
      intro l h
      by_cases hl : l = []
      · subst hl; rfl
      · rw [chunksOf_cons_eq hk hl, List.flatten_cons,
          ih (l.drop k) (by rw [List.length_drop]; omega)]
        exact List.take_append_drop k l
  exact main l.length l le_rfl

theorem length_chunksOf {k : Nat} (hk : 0 < k) (l : List α) :
    (chunksOf k l).length = (l.length + k - 1) / k := by
  have main : ∀ n (l : List α), l.length ≤ n →
      (chunksOf k l).length = (l.length + k - 1) / k := by
    intro n
    induction n with
    | zero =>
      intro l h
      have : l = [] := List.eq_nil_of_length_eq_zero (Nat.le_zero.mp h)
      subst this
      simp [chunksOf_nil, Nat.div_eq_of_lt (by omega : k - 1 < k)]
    | succ n ih =>
      intro l h
      by_cases hl : l = []
      · subst hl
        simp [chunksOf_nil, Nat.div_eq_of_lt (by omega : k - 1 < k)]
      · have hpos : 0 < l.length := List.length_pos.mpr hl
        rw [chunksOf_cons_eq hk hl, List.length_cons,
          ih (l.drop k) (by rw [List.length_drop]; omega)]
        rw [List.length_drop]
        have h1 : l.length + k - 1 = (l.length - 1) + k := by omega
        rcases le_or_lt l.length k with hle | hlt
        · have e1 : (l.length - k + k - 1) / k = 0 :=
            Nat.div_eq_of_lt (by omega)
          have e2 : (l.length - 1) / k = 0 :=
            Nat.div_eq_of_lt (by omega)
          rw [e1, h1, Nat.add_div_right _ hk, e2]
        · have e1 : l.length - k + k - 1 = l.length - 1 := by omega
          rw [e1, h1, Nat.add_div_right _ hk]
  exact main l.length l le_rfl

theorem length_mem_chunksOf_le {k : Nat} (hk : 0 < k) {l c : List α}
    (hc : c ∈ chunksOf k l) : c.length ≤ k := by
  have main : ∀ n (l c : List α), l.length ≤ n → c ∈ chunksOf k l → c.length ≤ k := by
    intro n
    induction n with
    | zero =>
      intro l c h hc
      have : l = [] := List.eq_nil_of_length_eq_zero (Nat.le_zero.mp h)
      subst this
      simp [chunksOf_nil] at hc
    | succ n ih =>
      intro l c h hc
      by_cases hl : l = []
      · subst hl; simp [chunksOf_nil] at hc
      · rw [chunksOf_cons_eq hk hl] at hc
        rcases List.mem_cons.mp hc with hc1 | hc1
        · subst hc1
          simpa using Nat.le_of_lt_succ (Nat.lt_succ_of_le (List.length_take_le k l))
        · exact ih (l.drop k) c (by rw [List.length_drop]; omega) hc1
  exact main l.length l c le_rfl hc

theorem length_mem_chunksOf_eq {k : Nat} (hk : 0 < k) {l c : List α}
    (hdvd : k ∣ l.length) (hc : c ∈ chunksOf k l) : c.length = k := by
  have main : ∀ n (l c : List α), l.length ≤ n → k ∣ l.length →
      c ∈ chunksOf k l → c.length = k := by
    intro n
    induction n with
    | zero =>
      intro l c h _ hc
      have : l = [] := List.eq_nil_of_length_eq_zero (Nat.le_zero.mp h)
      subst this
      simp [chunksOf_nil] at hc
    | succ n ih =>
      intro l c h hd hc
      by_cases hl : l = []
      · subst hl; simp [chunksOf_nil] at hc
      · have hpos : 0 < l.length := List.length_pos.mpr hl
        have hkle : k ≤ l.length := Nat.le_of_dvd hpos hd
        rw [chunksOf_cons_eq hk hl] at hc
        rcases List.mem_cons.mp hc with hc1 | hc1
        · subst hc1
          rw [List.length_take]
          omega
        · refine ih (l.drop k) c (by rw [List.length_drop]; omega) ?_ hc1
          rw [List.length_drop]
          exact (Nat.dvd_sub' hd dvd_rfl)
  exact main l.length l c le_rfl hdvd hc

theorem chunksOf_append {k : Nat} (hk : 0 < k) {a : List α} (b : List α)
    (hdvd : k ∣ a.length) : chunksOf k (a ++ b) = chunksOf k a ++ chunksOf k b := by
  have main : ∀ n (a b : List α), a.length ≤ n → k ∣ a.length →
      chunksOf k (a ++ b) = chunksOf k a ++ chunksOf k b := by
    intro n
    induction n with
    | zero =>
      intro a b h _
      have : a = [] := List.eq_nil_of_length_eq_zero (Nat.le_zero.mp h)
      subst this; simp [chunksOf_nil]
    | succ n ih =>
      intro a b h hd
      by_cases ha : a = []
      · subst ha; simp [chunksOf_nil]
      · have hpos : 0 < a.length := List.length_pos.mpr ha
        have hkle : k ≤ a.length := Nat.le_of_dvd hpos hd
        by_cases hb : b = []
        · subst hb; simp [chunksOf_nil]
        · have hab : a ++ b ≠ [] := by simp [ha]
          rw [chunksOf_cons_eq hk hab, chunksOf_cons_eq hk ha]
          rw [List.take_append_of_le_length hkle,
            List.drop_append_of_le_length hkle]
          rw [ih (a.drop k) b (by rw [List.length_drop]; omega)
            (by rw [List.length_drop]; exact Nat.dvd_sub' hd dvd_rfl)]
          simp
  exact main a.length a b le_rfl hdvd

theorem chunksOf_flatten_of_length {k : Nat} (hk : 0 < k) {ls : List (List α)}
    (h : ∀ x ∈ ls, x.length = k) : chunksOf k ls.flatten = ls := by
  induction ls with
  | nil => rfl
  | cons x rest ih =>
    have hx : x.length = k := h x (by simp)
    have hxne : x ≠ [] := by
      intro hh; subst hh; simp at hx; omega
    have hne : x ++ rest.flatten ≠ [] := by simp [hxne]
    rw [List.flatten_cons, chunksOf_cons_eq hk hne]
    have ht : (x ++ rest.flatten).take k = x := by
      rw [← hx]; exact List.take_left x rest.flatten
    have hd2 : (x ++ rest.flatten).drop k = rest.flatten := by
      rw [← hx]; exact List.drop_left x rest.flatten
    rw [ht, hd2, ih (fun y hy => h y (by simp [hy]))]

/-! ### Bit-string lemmas -/

theorem length_natToBits (w n : Nat) : (natToBits w n).length = w := by
  induction w generalizing n with
  | zero => rfl
  | succ w ih => simp [natToBits, ih]

theorem bitsToNat_foldl (l : List Bool) :
    ∀ a, l.foldl (fun a b => 2 * a + (if b then 1 else 0)) a
      = a * 2 ^ l.length + bitsToNat l := by
  induction l with
  | nil => intro a; simp [bitsToNat]
  | cons b bs ih =>
    intro a
    have hb : bitsToNat (b :: bs)
        = (if b then 1 else 0) * 2 ^ bs.length + bitsToNat bs := by
      unfold bitsToNat
      rw [List.foldl_cons, ih]
      simp [bitsToNat]
    rw [List.foldl_cons, ih, hb, List.length_cons]
    ring

theorem bitsToNat_lt (l : List Bool) : bitsToNat l < 2 ^ l.length := by
  induction l with
  | nil => simp [bitsToNat]
  | cons b bs ih =>
    have hb : bitsToNat (b :: bs)
        = (if b then 1 else 0) * 2 ^ bs.length + bitsToNat bs := by
      unfold bitsToNat
      rw [List.foldl_cons, bitsToNat_foldl]
      simp [bitsToNat]
    rw [hb, List.length_cons, pow_succ]
    have : (if b then 1 else 0) ≤ 1 := by split <;> omega
    nlinarith

theorem natToBits_add_mul (w c r : Nat) :
    natToBits w (c * 2 ^ w + r) = natToBits w r := by
  induction w generalizing c with
  | zero => rfl
  | succ w ih =>
    have harg : c * 2 ^ (w + 1) + r = (2 * c) * 2 ^ w + r := by ring
    simp only [natToBits, harg]
    have hhead : ((2 * c) * 2 ^ w + r).testBit w = r.testBit w := by
      rw [Nat.testBit_to_div_mod, Nat.testBit_to_div_mod]
      have hdiv : ((2 * c) * 2 ^ w + r) / 2 ^ w = r / 2 ^ w + 2 * c := by
        rw [Nat.add_comm, Nat.add_mul_div_right _ _ (Nat.two_pow_pos w)]
      rw [hdiv, Nat.add_mul_mod_self_left]
    rw [hhead, ih (2 * c)]

theorem bitsToNat_natToBits (w n : Nat) :
    bitsToNat (natToBits w n) = n % 2 ^ w := by
  induction w generalizing n with
  | zero => simp [natToBits, bitsToNat, Nat.mod_one]
  | succ w ih =>
    have hcons : bitsToNat (n.testBit w :: natToBits w n)
        = (if n.testBit w then 1 else 0) * 2 ^ w + bitsToNat (natToBits w n) := by
      unfold bitsToNat
      rw [List.foldl_cons, bitsToNat_foldl, length_natToBits]
      simp [bitsToNat]
    rw [natToBits, hcons, ih]
    have hbit : (if n.testBit w then 1 else 0) = n / 2 ^ w % 2 := by
      rw [Nat.testBit_to_div_mod]
      rcases Nat.mod_two_eq_zero_or_one (n / 2 ^ w) with h | h <;> simp [h]
    rw [hbit]
    have hmul : n % 2 ^ (w + 1) = n % 2 ^ w + 2 ^ w * (n / 2 ^ w % 2) := by
      rw [pow_succ, Nat.mod_mul]
    rw [hmul]
    ring

theorem natToBits_bitsToNat {l : List Bool} {w : Nat} (h : l.length = w) :
    natToBits w (bitsToNat l) = l := by
  induction l generalizing w with
  | nil => rw [← h]; rfl
  | cons b bs ih =>
    subst h
    have hval : bitsToNat (b :: bs)
        = (if b then 1 else 0) * 2 ^ bs.length + bitsToNat bs := by
      unfold bitsToNat
      rw [List.foldl_cons, bitsToNat_foldl]
      simp [bitsToNat]
    rw [List.length_cons, natToBits, hval, natToBits_add_mul]
    have hhead : ((if b then 1 else 0) * 2 ^ bs.length + bitsToNat bs).testBit bs.length = b := by
      rw [Nat.testBit_to_div_mod]
      have hdiv : ((if b then 1 else 0) * 2 ^ bs.length + bitsToNat bs) / 2 ^ bs.length
          = (if b then 1 else 0) := by
        rw [Nat.add_comm, Nat.add_mul_div_right _ _ (Nat.two_pow_pos bs.length),
          Nat.div_eq_of_lt (bitsToNat_lt bs)]
        omega
      rw [hdiv]
      cases b <;> simp
    rw [hhead, ih rfl]

/-! ### Decimal digit lemmas -/

theorem natDigitsAux_fuel : ∀ f g n, n < f → n < g →
    natDigitsAux f n = natDigitsAux g n := by
  intro f
  induction f with
  | zero => intro g n hf; omega
  | succ f ih =>
    intro g n hf hg
    cases g with
    | zero => omega
    | succ g =>
      simp only [natDigitsAux]
      by_cases h10 : n < 10
      · simp [h10]
      · rw [if_neg h10, if_neg h10]
        have hdiv : n / 10 < n := Nat.div_lt_self (by omega) (by omega)
        rw [ih g (n / 10) (by omega) (by omega)]

theorem natDecimalDigits_small {n : Nat} (h : n < 10) : natDecimalDigits n = [n] := by
  unfold natDecimalDigits
  simp [natDigitsAux, h]

theorem natDecimalDigits_step {n : Nat} (h : 10 ≤ n) :
    natDecimalDigits n = natDecimalDigits (n / 10) ++ [n % 10] := by
  have h10 : ¬ n < 10 := by omega
  unfold natDecimalDigits
  have h1 : natDigitsAux (n + 1) n = n % 10 :: natDigitsAux n (n / 10) := by
    simp [natDigitsAux, h10]
  have hdiv : n / 10 < n := Nat.div_lt_self (by omega) (by omega)
  have h2 : natDigitsAux n (n / 10) = natDigitsAux (n / 10 + 1) (n / 10) :=
    natDigitsAux_fuel n (n / 10 + 1) (n / 10) (by omega) (by omega)
  rw [h1, h2, List.reverse_cons]

theorem valMSB_foldl (l : List Nat) :
    ∀ a, l.foldl (fun a d => 10 * a + d) a = a * 10 ^ l.length + valMSB l := by
  induction l with
  | nil => intro a; simp [valMSB]
  | cons d ds ih =>
    intro a
    have hv : valMSB (d :: ds) = d * 10 ^ ds.length + valMSB ds := by
      unfold valMSB
      rw [List.foldl_cons, ih]
      simp [valMSB]
    rw [List.foldl_cons, ih, hv, List.length_cons]
    ring

theorem valMSB_append_singleton (ds : List Nat) (d : Nat) :
    valMSB (ds ++ [d]) = 10 * valMSB ds + d := by
  unfold valMSB
  rw [List.foldl_append]
  simp [valMSB]

theorem valMSB_natDecimalDigits (n : Nat) : valMSB (natDecimalDigits n) = n := by
  have main : ∀ f n, n < f → valMSB (natDecimalDigits n) = n := by
    intro f
    induction f with
    | zero => intro n h; omega
    | succ f ih =>
      intro n h
      by_cases h10 : n < 10
      · rw [natDecimalDigits_small h10]
        simp [valMSB]
      · rw [natDecimalDigits_step (by omega), valMSB_append_singleton]
        have hdiv : n / 10 < n := Nat.div_lt_self (by omega) (by omega)
        rw [ih (n / 10) (by omega)]
        omega
  exact main (n + 1) n (by omega)

theorem natDecimalDigits_all_lt (n : Nat) : ∀ d ∈ natDecimalDigits n, d < 10 := by
  have main : ∀ f n, n < f → ∀ d ∈ natDecimalDigits n, d < 10 := by
    intro f
    induction f with
    | zero => intro n h; omega
    | succ f ih =>
      intro n h d hd
      by_cases h10 : n < 10
      · rw [natDecimalDigits_small h10] at hd
        simp at hd
        omega
      · rw [natDecimalDigits_step (by omega)] at hd
        rcases List.mem_append.mp hd with hd1 | hd1
        · have hdiv : n / 10 < n := Nat.div_lt_self (by omega) (by omega)
          exact ih (n / 10) (by omega) d hd1
        · simp at hd1
          omega
  exact main (n + 1) n (by omega)

theorem natDecimalDigits_ne_nil (n : Nat) : natDecimalDigits n ≠ [] := by
  by_cases h10 : n < 10
  · rw [natDecimalDigits_small h10]; simp
  · rw [natDecimalDigits_step (by omega)]; simp

theorem natDecimalDigits_length_le {n k : Nat} (hk : 0 < k) (h : n < 10 ^ k) :
    (natDecimalDigits n).length ≤ k := by
  have main : ∀ f n k, n < f → 0 < k → n < 10 ^ k →
      (natDecimalDigits n).length ≤ k := by
    intro f
    induction f with
    | zero => intro n k h; omega
    | succ f ih =>
      intro n k hf hk hnk
      by_cases h10 : n < 10
      · rw [natDecimalDigits_small h10]
        simpa using hk
      · rw [natDecimalDigits_step (by omega), List.length_append]
        have hdiv : n / 10 < n := Nat.div_lt_self (by omega) (by omega)
        have hk2 : 2 ≤ k := by
          by_contra hc
          have : k = 1 := by omega
          subst this
          simp at hnk
          omega
        have hstep : n / 10 < 10 ^ (k - 1) := by
          have h1 : n < 10 ^ k := hnk
          have h2 : 10 ^ k = 10 ^ (k - 1) * 10 := by
            rw [← pow_succ]
            congr 1
            omega
          rw [h2] at h1
          exact Nat.div_lt_of_lt_mul (by omega)
        have := ih (n / 10) (k - 1) (by omega) (by omega) hstep
        simp only [List.length_singleton]
        omega
  exact main (n + 1) n k (by omega) hk h

theorem valMSB_lt {l : List Nat} (h : ∀ d ∈ l, d < 10) :
    valMSB l < 10 ^ l.length := by
  induction l with
  | nil => simp [valMSB]
  | cons d ds ih =>
    have hv : valMSB (d :: ds) = d * 10 ^ ds.length + valMSB ds := by
      unfold valMSB
      rw [List.foldl_cons, valMSB_foldl]
      simp [valMSB]
    rw [hv, List.length_cons, pow_succ]
    have hd : d < 10 := h d (by simp)
    have hds : valMSB ds < 10 ^ ds.length := ih (fun x hx => h x (by simp [hx]))
    nlinarith

theorem valMSB_replicate_zero (k : Nat) (ds : List Nat) :
    valMSB (List.replicate k 0 ++ ds) = valMSB ds := by
  induction k with
  | zero => simp
  | succ k ih =>
    rw [List.replicate_succ, List.cons_append]
    unfold valMSB
    rw [List.foldl_cons]
    simpa [valMSB] using ih

/-! ### Digit character lemmas -/

theorem digitChar_toNat : ∀ d, d < 10 → (Nat.digitChar d).toNat = 48 + d := by
  decide

theorem digitChar_isDigit : ∀ d, d < 10 → (Nat.digitChar d).isDigit = true := by
  decide

theorem digitChar_ne_dot : ∀ d, d < 10 → Nat.digitChar d ≠ '.' := by
  decide

theorem toLower_digitChar : ∀ d, d < 10 → (Nat.digitChar d).toLower = Nat.digitChar d := by
  decide

theorem mapDigitChar_inj : ∀ {a b : List Nat}, (∀ d ∈ a, d < 10) → (∀ d ∈ b, d < 10) →
    a.map Nat.digitChar = b.map Nat.digitChar → a = b := by
  intro a
  induction a with
  | nil =>
    intro b _ _ h
    cases b with
    | nil => rfl
    | cons y ys => simp at h
  | cons x xs ih =>
    intro b ha hb h
    cases b with
    | nil => simp at h
    | cons y ys =>
      simp only [List.map_cons, List.cons.injEq] at h
      have hx : x < 10 := ha x (by simp)
      have hy : y < 10 := hb y (by simp)
      have hxy : x = y := by
        have := congrArg Char.toNat h.1
        rw [digitChar_toNat x hx, digitChar_toNat y hy] at this
        omega
      rw [hxy, ih (fun d hd => ha d (by simp [hd])) (fun d hd => hb d (by simp [hd])) h.2]

theorem strLt_mapDigit_of_val_lt : ∀ {a b : List Nat}, (∀ d ∈ a, d < 10) →
    (∀ d ∈ b, d < 10) → a.length = b.length → valMSB a < valMSB b →
    strLt (a.map Nat.digitChar) (b.map Nat.digitChar) = true := by
  intro a
  induction a with
  | nil =>
    intro b _ _ hlen hval
    cases b with
    | nil => simp [valMSB] at hval
    | cons y ys => simp at hlen
  | cons x xs ih =>
    intro b ha hb hlen hval
    cases b with
    | nil => simp at hlen
    | cons y ys =>
      have hx : x < 10 := ha x (by simp)
      have hy : y < 10 := hb y (by simp)
      have hlen' : xs.length = ys.length := by simpa using hlen
      have hvx : valMSB (x :: xs) = x * 10 ^ xs.length + valMSB xs := by
        unfold valMSB
        rw [List.foldl_cons, valMSB_foldl]
        simp [valMSB]
      have hvy : valMSB (y :: ys) = y * 10 ^ ys.length + valMSB ys := by
        unfold valMSB
        rw [List.foldl_cons, valMSB_foldl]
        simp [valMSB]
      rcases Nat.lt_trichotomy x y with hxy | hxy | hxy
      · apply strLt_cons_of_lt
        rw [digitChar_toNat x hx, digitChar_toNat y hy]
        omega
      · subst hxy
        have hval' : valMSB xs < valMSB ys := by
          rw [hvx, hvy, hlen'] at hval
          omega
        simp only [List.map_cons, strLt, Nat.lt_irrefl, if_false]
        exact ih (fun d hd => ha d (by simp [hd])) (fun d hd => hb d (by simp [hd]))
          hlen' hval'
      · exfalso
        have hbx : valMSB xs < 10 ^ xs.length := valMSB_lt (fun d hd => ha d (by simp [hd]))
        have hby : valMSB ys < 10 ^ ys.length := valMSB_lt (fun d hd => hb d (by simp [hd]))
        rw [hvx, hvy, hlen'] at hval
        nlinarith

/-! ### formatIndex lemmas -/

theorem formatIndex_eq_map (i : Nat) :
    formatIndex i = (padDigits4 i).map Nat.digitChar := by
  unfold formatIndex padDigits4
  rw [List.map_append, List.map_replicate]
  simp only [List.length_map]
  rfl

theorem padDigits4_all_lt (i : Nat) : ∀ d ∈ padDigits4 i, d < 10 := by
  intro d hd
  unfold padDigits4 at hd
  rcases List.mem_append.mp hd with h | h
  · rw [List.eq_of_mem_replicate h]; omega
  · exact natDecimalDigits_all_lt i d h

theorem valMSB_padDigits4 (i : Nat) : valMSB (padDigits4 i) = i := by
  unfold padDigits4
  rw [valMSB_replicate_zero, valMSB_natDecimalDigits]

theorem padDigits4_length {i : Nat} (h : i < 10000) : (padDigits4 i).length = 4 := by
  unfold padDigits4
  rw [List.length_append, List.length_replicate]
  have hle : (natDecimalDigits i).length ≤ 4 :=
    natDecimalDigits_length_le (by omega) (by omega)
  omega

theorem padDigits4_ne_nil (i : Nat) : padDigits4 i ≠ [] := by
  unfold padDigits4
  intro h
  rcases List.append_eq_nil.mp h with ⟨_, h2⟩
  exact natDecimalDigits_ne_nil i h2

theorem formatIndex_length4 {i : Nat} (h : i < 10000) : (formatIndex i).length = 4 := by
  rw [formatIndex_eq_map, List.length_map, padDigits4_length h]

theorem formatIndex_ne_nil (i : Nat) : formatIndex i ≠ [] := by
  rw [formatIndex_eq_map]
  intro h
  exact padDigits4_ne_nil i (List.map_eq_nil.mp h)

theorem formatIndex_all_isDigit (i : Nat) : ∀ c ∈ formatIndex i, c.isDigit = true := by
  intro c hc
  rw [formatIndex_eq_map] at hc
  rcases List.mem_map.mp hc with ⟨d, hd, rfl⟩
  exact digitChar_isDigit d (padDigits4_all_lt i d hd)

theorem isDigit_ne_dot {c : Char} (h : c.isDigit = true) : c ≠ '.' := by
  intro hc
  subst hc
  simp [Char.isDigit] at h

theorem toNat_ofNat_valid {n : Nat} (h : n.isValidChar) : (Char.ofNat n).toNat = n := by
  unfold Char.ofNat
  rw [dif_pos h]
  unfold Char.ofNatAux
  simp [Char.toNat, UInt32.toNat, BitVec.toNat_ofNatLt]

theorem isDigit_toLower {c : Char} (h : c.isDigit = true) : c.toLower = c := by
  simp only [Char.isDigit, Bool.and_eq_true, decide_eq_true_eq] at h
  have hv : c.val.toNat ≤ 57 := h.2
  unfold Char.toLower
  rw [if_neg]
  rintro ⟨h65, _⟩
  have h65' : 65 ≤ c.val.toNat := h65
  omega

theorem toLower_eq_dot_iff (c : Char) : c.toLower = '.' ↔ c = '.' := by
  constructor
  · intro h
    unfold Char.toLower at h
    by_cases hc : c.toNat ≥ 65 ∧ c.toNat ≤ 90
    · exfalso
      rw [if_pos hc] at h
      have hval : (c.toNat + 32).isValidChar := by
        left
        omega
      have := congrArg Char.toNat h
      rw [toNat_ofNat_valid hval] at this
      have hdot : ('.' : Char).toNat = 46 := by decide
      omega
    · rwa [if_neg hc] at h
  · rintro rfl
    decide

theorem formatIndex_strLt {i j : Nat} (hij : i < j) (hj : j < 10000) :
    strLt (formatIndex i) (formatIndex j) = true := by
  rw [formatIndex_eq_map, formatIndex_eq_map]
  apply strLt_mapDigit_of_val_lt (padDigits4_all_lt i) (padDigits4_all_lt j)
  · rw [padDigits4_length (by omega), padDigits4_length hj]
  · rw [valMSB_padDigits4, valMSB_padDigits4]
    exact hij

theorem formatIndex_inj {i j : Nat} (h : formatIndex i = formatIndex j) : i = j := by
  rw [formatIndex_eq_map, formatIndex_eq_map] at h
  have := mapDigitChar_inj (padDigits4_all_lt i) (padDigits4_all_lt j) h
  have hv := congrArg valMSB this
  rw [valMSB_padDigits4, valMSB_padDigits4] at hv
  exact hv

theorem digitsToNat_map_digitChar {ds : List Nat} (h : ∀ d ∈ ds, d < 10) :
    digitsToNat (ds.map Nat.digitChar) = valMSB ds := by
  have main : ∀ (ds : List Nat) a, (∀ d ∈ ds, d < 10) →
      (ds.map Nat.digitChar).foldl (fun a c => 10 * a + (c.toNat - 48)) a
        = ds.foldl (fun a d => 10 * a + d) a := by
    intro ds
    induction ds with
    | nil => intro a _; rfl
    | cons d rest ih =>
      intro a hall
      have hd : d < 10 := hall d (by simp)
      simp only [List.map_cons, List.foldl_cons]
      rw [digitChar_toNat d hd]
      have harg : 10 * a + (48 + d - 48) = 10 * a + d := by omega
      rw [harg, ih _ (fun x hx => hall x (by simp [hx]))]
  unfold digitsToNat valMSB
  exact main ds 0 h

theorem digitsToNat_formatIndex (i : Nat) : digitsToNat (formatIndex i) = i := by
  rw [formatIndex_eq_map, digitsToNat_map_digitChar (padDigits4_all_lt i),
    valMSB_padDigits4]

/-! ### Suffix and take lemmas -/

theorem isSuffixOf_append_self (a s : List Char) : s.isSuffixOf (a ++ s) = true :=
  List.isSuffixOf_iff_suffix.mpr (List.suffix_append a s)

theorem take_append_sub (a s : List Char) :
    (a ++ s).take ((a ++ s).length - s.length) = a := by
  have h : (a ++ s).length - s.length = a.length := by
    rw [List.length_append]; omega
  rw [h, List.take_left]

theorem map_eq_self_of_mem {f : α → α} {l : List α} (h : ∀ c ∈ l, f c = c) :
    l.map f = l := by
  induction l with
  | nil => rfl
  | cons x xs ih =>
    rw [List.map_cons, h x (by simp), ih (fun c hc => h c (by simp [hc]))]

theorem dropWhile_congr_pred {p q : α → Bool} {l : List α}
    (h : ∀ x ∈ l, p x = q x) : l.dropWhile p = l.dropWhile q := by
  induction l with
  | nil => rfl
  | cons x xs ih =>
    rw [List.dropWhile_cons, List.dropWhile_cons, h x (by simp),
      ih (fun y hy => h y (by simp [hy]))]

theorem dropWhile_append_of_ne_nil {p : α → Bool} {x : List α} (y : List α)
    (h : x.dropWhile p ≠ []) :
    (x ++ y).dropWhile p = x.dropWhile p ++ y := by
  induction x with
  | nil => simp at h
  | cons a as ih =>
    rw [List.cons_append, List.dropWhile_cons, List.dropWhile_cons]
    by_cases ha : p a = true
    · rw [if_pos ha, if_pos ha]
      rw [List.dropWhile_cons, if_pos ha] at h
      exact ih h
    · rw [if_neg ha, if_neg ha, List.cons_append]

theorem rstripBy_append_of_ne_nil {p : α → Bool} (a : List α) {t : List α}
    (h : rstripBy p t ≠ []) :
    rstripBy p (a ++ t) = a ++ rstripBy p t := by
  unfold rstripBy at h ⊢
  rw [List.reverse_append]
  have hne : t.reverse.dropWhile p ≠ [] := by
    intro hh
    rw [hh] at h
    simp at h
  rw [dropWhile_append_of_ne_nil _ hne, List.reverse_append, List.reverse_reverse]

theorem rstripBy_append_of_nil {p : α → Bool} (a : List α) {t : List α}
    (h : rstripBy p t = []) :
    rstripBy p (a ++ t) = rstripBy p a := by
  have hall : ∀ x ∈ t, p x = true := by
    intro x hx
    have : t.reverse.dropWhile p = [] := by
      unfold rstripBy at h
      rcases List.eq_nil_or_concat (t.reverse.dropWhile p) with h1 | ⟨ys, y, h1⟩
      · exact h1
      · rw [h1] at h
        simp at h
    exact List.dropWhile_eq_nil_iff.mp this x (by simp [hx])
  exact rstripBy_append_all a hall

/-! ### rstripDots and lowercase lemmas -/

theorem rstripDots_append_dot (l : List Char) :
    rstripDots (l ++ ['.']) = rstripDots l := by
  exact rstripBy_append_all l (by simp)

theorem rstripDots_eq_self {l : List Char}
    (h : ∀ c, l.getLast? = some c → c ≠ '.') : rstripDots l = l := by
  apply rstripBy_eq_self
  intro b hb
  simpa using h b hb

theorem getLast?_rstripDots {l : List Char} {c : Char}
    (h : (rstripDots l).getLast? = some c) : c ≠ '.' := by
  have := getLast?_rstripBy_false h
  simpa using this

theorem map_toLower_rstripDots (l : List Char) :
    (rstripDots l).map Char.toLower = rstripDots (l.map Char.toLower) := by
  unfold rstripDots rstripBy
  rw [← List.map_reverse Char.toLower l, List.dropWhile_map, List.map_reverse]
  have hdw : List.dropWhile (fun c => c == '.') l.reverse
      = List.dropWhile ((fun c => c == '.') ∘ Char.toLower) l.reverse := by
    apply dropWhile_congr_pred
    intro x _
    simp only [Function.comp_apply, beq_iff_eq]
    by_cases hx : x = '.'
    · subst hx; simp
    · have h1 : Char.toLower x ≠ '.' := fun hh => hx ((toLower_eq_dot_iff x).mp hh)
      simp [hx, h1]
  rw [hdw]

theorem rstripDots_map_toLower_last {l : List Char}
    (h : ∀ c, l.getLast? = some c → c ≠ '.') :
    rstripDots (l.map Char.toLower) = l.map Char.toLower := by
  apply rstripDots_eq_self
  intro c hc
  rw [List.getLast?_eq_head?_reverse, ← List.map_reverse, List.head?_map] at hc
  cases hrev : l.reverse.head? with
  | none => rw [hrev] at hc; exact Option.noConfusion hc
  | some d =>
    rw [hrev] at hc
    simp only [Option.map_some', Option.some_inj] at hc
    have hd : d ≠ '.' := h d (by rw [List.getLast?_eq_head?_reverse, hrev])
    subst hc
    exact fun hh => hd ((toLower_eq_dot_iff d).mp hh)

/-! ### Base32 round-trip lemmas -/

theorem b32_mem_getD (v : Nat) : b32alphabet.getD v 'A' ∈ b32alphabet := by
  by_cases h : v < b32alphabet.length
  · rw [List.getD_eq_getElem _ _ h]
    exact List.getElem_mem h
  · rw [List.getD_eq_default _ _ (by omega)]
    decide

theorem b32_indexOf_getD :
    ∀ v, v < 32 → b32alphabet.indexOf (b32alphabet.getD v 'A') = v := by
  decide

theorem b32_no_pad : ∀ c ∈ b32alphabet, (c == '=') = false := by decide

theorem b32_upper_lower : ∀ c ∈ b32alphabet, (Char.toLower c).toUpper = c := by decide

theorem b32_lower_ne_dot : ∀ c ∈ b32alphabet, (Char.toLower c != '.') = true := by decide

theorem length_b32bodyBits (bs : List Nat) : (b32bodyBits bs).length = 8 * bs.length := by
  unfold b32bodyBits
  induction bs with
  | nil => rfl
  | cons x xs ih =>
    rw [List.map_cons, List.flatten_cons, List.length_append, ih, length_natToBits,
      List.length_cons]
    ring

theorem length_b32fullBits (bs : List Nat) :
    (b32fullBits bs).length = 8 * bs.length + b32padLen bs := by
  unfold b32fullBits
  rw [List.length_append, List.length_replicate, length_b32bodyBits]

theorem b32padLen_eq (bs : List Nat) :
    b32padLen bs = (5 - (8 * bs.length) % 5) % 5 := by
  unfold b32padLen
  rw [length_b32bodyBits]

theorem b32fullBits_dvd (bs : List Nat) : 5 ∣ (b32fullBits bs).length := by
  rw [length_b32fullBits, b32padLen_eq]
  omega

theorem b32chars_mem (bs : List Nat) : ∀ c ∈ b32chars bs, c ∈ b32alphabet := by
  intro c hc
  rcases List.mem_map.mp hc with ⟨g, _, rfl⟩
  exact b32_mem_getD _

theorem b32chars_length (bs : List Nat) :
    (b32chars bs).length = ((b32fullBits bs).length + 4) / 5 := by
  unfold b32chars
  rw [List.length_map, length_chunksOf (by omega)]
  omega

theorem rstrip_pad_of_alpha {cs : List Char} (k : Nat)
    (hmem : ∀ c ∈ cs, c ∈ b32alphabet) :
    rstripBy (fun c => c == '=') (cs ++ List.replicate k '=') = cs := by
  rw [rstripBy_append_all cs (by
    intro x hx
    rw [List.eq_of_mem_replicate hx]
    rfl)]
  exact rstripBy_eq_self
    (fun b hb => b32_no_pad b (hmem b (List.mem_of_mem_getLast? hb)))

theorem b32encode_eq (bs : List Nat) :
    b32encode bs
      = b32chars bs ++ List.replicate ((8 - (b32chars bs).length % 8) % 8) '=' := rfl

theorem encode_chunk_eq (bs : List Nat) :
    encode_chunk bs = (b32chars bs).map Char.toLower := by
  unfold encode_chunk
  rw [b32encode_eq, rstrip_pad_of_alpha _ (b32chars_mem bs)]

theorem b32_groups_roundtrip (bs : List Nat) :
    (b32chars bs).map (fun c => natToBits 5 (b32alphabet.indexOf c))
      = chunksOf 5 (b32fullBits bs) := by
  unfold b32chars
  rw [List.map_map]
  apply map_eq_self_of_mem
  intro g hg
  have heq : g.length = 5 :=
    length_mem_chunksOf_eq (by omega) (b32fullBits_dvd bs) hg
  have hlt : bitsToNat g < 32 := by
    have h1 : bitsToNat g < 2 ^ g.length := bitsToNat_lt g
    rw [heq] at h1
    omega
  simp only [Function.comp_apply]
  rw [b32_indexOf_getD _ hlt, natToBits_bitsToNat heq]

theorem bytes_of_bits (bs : List Nat) (h : ∀ x ∈ bs, x < 256) :
    (chunksOf 8 (b32bodyBits bs)).map bitsToNat = bs := by
  unfold b32bodyBits
  rw [chunksOf_flatten_of_length (by omega)
    (by intro x hx; rcases List.mem_map.mp hx with ⟨y, _, rfl⟩; exact length_natToBits 8 y)]
  rw [List.map_map]
  apply map_eq_self_of_mem
  intro x hx
  simp only [Function.comp_apply]
  rw [bitsToNat_natToBits, Nat.mod_eq_of_lt (by simpa using h x hx)]

theorem decode_labels_encode_chunk {bs : List Nat} (h : ∀ x ∈ bs, x < 256) :
    decode_labels (encode_chunk bs) = some bs := by
  rw [encode_chunk_eq]
  have hfilter : ((b32chars bs).map Char.toLower).filter (fun c => c != '.')
      = (b32chars bs).map Char.toLower := by
    apply List.filter_eq_self.mpr
    intro a ha
    rcases List.mem_map.mp ha with ⟨c, hc, rfl⟩
    exact b32_lower_ne_dot c (b32chars_mem bs c hc)
  have hclean : (((b32chars bs).map Char.toLower).filter (fun c => c != '.')).map Char.toUpper
      = b32chars bs := by
    rw [hfilter, List.map_map]
    exact map_eq_self_of_mem (fun c hc => b32_upper_lower c (b32chars_mem bs c hc))
  simp only [decode_labels]
  rw [hclean]
  -- Now evaluate b32decode on the re-padded character string.
  have hm : (b32chars bs).length = (8 * bs.length + b32padLen bs + 4) / 5 := by
    rw [b32chars_length, length_b32fullBits]
  have hslen : (b32chars bs ++ List.replicate ((8 - (b32chars bs).length % 8) % 8) '=').length
      = (b32chars bs).length + (8 - (b32chars bs).length % 8) % 8 := by
    rw [List.length_append, List.length_replicate]
  have hbody : rstripBy (fun c => c == '=')
      (b32chars bs ++ List.replicate ((8 - (b32chars bs).length % 8) % 8) '=')
      = b32chars bs := rstrip_pad_of_alpha _ (b32chars_mem bs)
  simp only [b32decode]
  rw [hbody, hslen]
  rw [if_neg (by omega)]
  rw [if_neg (by
    intro hall
    apply hall
    apply List.all_eq_true.mpr
    intro c hc
    exact List.elem_eq_true_of_mem (b32chars_mem bs c hc))]
  rw [if_neg (by
    rw [hm, b32padLen_eq]
    intro hnot
    apply hnot
    omega)]
  rw [b32_groups_roundtrip, flatten_chunksOf (by omega)]
  have hsplit : b32fullBits bs = b32bodyBits bs ++ List.replicate (b32padLen bs) false := rfl
  rw [hsplit, chunksOf_append (by omega) _
    (by rw [length_b32bodyBits]; exact dvd_mul_right 8 bs.length)]
  rw [List.map_append, bytes_of_bits bs h]
  have hlen2 : (b32bodyBits bs ++ List.replicate (b32padLen bs) false).length
      = 8 * bs.length + b32padLen bs := by
    rw [List.length_append, List.length_replicate, length_b32bodyBits]
  rw [hlen2]
  have hdiv : (8 * bs.length + b32padLen bs) / 8 = bs.length := by
    rw [b32padLen_eq]
    omega
  rw [hdiv]
  have htake : (bs ++ (chunksOf 8 (List.replicate (b32padLen bs) false)).map bitsToNat).take bs.length
      = bs := by
    rw [List.take_append_of_le_length le_rfl, List.take_length]
  rw [htake]

/-! ### Claim C1 -/

/-- C1: Base32 codec round-trip: for every byte string `b` (of any
length), `decode_labels (encode_chunk b) = some b`, where `encode_chunk`
strips `=` padding and lowercases and `decode_labels` uppercases,
re-pads to a multiple of 8 characters, and base32-decodes. -/
theorem c1_base32_roundtrip (b : List Nat) (h : ∀ x ∈ b, x < 256) :
    decode_labels (encode_chunk b) = some b :=
  decode_labels_encode_chunk h

/-- Witness for C1 at the concrete byte string `hi`. -/
theorem c1_base32_roundtrip_witness :
    (∀ x ∈ [104, 105], x < 256) ∧
      decode_labels (encode_chunk [104, 105]) = some [104, 105] :=
  ⟨by decide, c1_base32_roundtrip [104, 105] (by decide)⟩

/-! ### Claim C4 -/

/-- C4: Chunk count invariant: for every message `m` and `chunk_size > 0`,
`chunk_message` returns exactly `max 1 ⌈len m / chunk_size⌉` chunks, every
chunk has length exactly `chunk_size`, and an empty message gives a single
chunk entirely of the filler byte 0x5F. -/
theorem c4_chunk_count_invariant (m : List Nat) (cs : Nat) (hcs : 0 < cs) :
    (chunk_message m cs).length = max 1 ((m.length + cs - 1) / cs) ∧
    (∀ c ∈ chunk_message m cs, c.length = cs) ∧
    (m = [] → chunk_message m cs = [List.replicate cs fillerByte]) := by
  by_cases hm : m = []
  · subst hm
    refine ⟨?_, ?_, fun _ => rfl⟩
    · simp [chunk_message, chunksOf_nil, Nat.div_eq_of_lt (by omega : cs - 1 < cs)]
    · intro c hc
      simp only [chunk_message, chunksOf_nil, List.map_nil, List.isEmpty_nil,
        if_true, List.mem_singleton] at hc
      subst hc
      exact List.length_replicate cs fillerByte
  · have hchunks : chunksOf cs m = m.take cs :: chunksOf cs (m.drop cs) :=
      chunksOf_cons_eq hcs hm
    have hne : ((chunksOf cs m).map
        (fun c => c ++ List.replicate (cs - c.length) fillerByte)).isEmpty = false := by
      rw [hchunks]
      rfl
    have hbody : chunk_message m cs = (chunksOf cs m).map
        (fun c => c ++ List.replicate (cs - c.length) fillerByte) := by
      simp only [chunk_message, hne, Bool.false_eq_true, if_false]
    refine ⟨?_, ?_, fun hcontra => absurd hcontra hm⟩
    · rw [hbody, List.length_map, length_chunksOf hcs]
      have hge : 1 ≤ (m.length + cs - 1) / cs := by
        apply (Nat.one_le_div_iff hcs).mpr
        have : 0 < m.length := List.length_pos.mpr hm
        omega
      omega
    · intro c hc
      rw [hbody] at hc
      rcases List.mem_map.mp hc with ⟨g, hg, rfl⟩
      have hle : g.length ≤ cs := length_mem_chunksOf_le hcs hg
      rw [List.length_append, List.length_replicate]
      omega

/-- Witness for C4 at the message `hello` with chunk size 8. -/
theorem c4_chunk_count_invariant_witness :
    0 < 8 ∧
      ((chunk_message [104, 101, 108, 108, 111] 8).length = max 1 ((5 + 8 - 1) / 8) ∧
       (∀ c ∈ chunk_message [104, 101, 108, 108, 111] 8, c.length = 8) ∧
       ([104, 101, 108, 108, 111] = ([] : List Nat) →
         chunk_message [104, 101, 108, 108, 111] 8 = [List.replicate 8 fillerByte])) :=
  ⟨by decide, c4_chunk_count_invariant [104, 101, 108, 108, 111] 8 (by decide)⟩

/-! ### Claim C8 -/

/-- C8: Label split/join inverse: for every text `t` and `max_len > 0`,
concatenating the segments of `split_into_labels t max_len` recovers `t`,
the number of segments is `⌈len t / max_len⌉` for non-empty `t` and 0 for
empty `t`, and every segment has length at most `max_len`. -/
theorem c8_split_join_inverse (t : List Char) (ml : Nat) (hml : 0 < ml) :
    (split_into_labels t ml).flatten = t ∧
    (split_into_labels t ml).length = (if t = [] then 0 else (t.length + ml - 1) / ml) ∧
    (∀ s ∈ split_into_labels t ml, s.length ≤ ml) := by
  by_cases ht : t = []
  · subst ht
    refine ⟨rfl, by simp [split_into_labels], ?_⟩
    intro s hs
    simp [split_into_labels] at hs
  · have hbody : split_into_labels t ml = chunksOf ml t := by
      simp [split_into_labels, ht]
    refine ⟨?_, ?_, ?_⟩
    · rw [hbody]
      exact flatten_chunksOf hml t
    · rw [hbody, if_neg ht]
      exact length_chunksOf hml t
    · intro s hs
      rw [hbody] at hs
      exact length_mem_chunksOf_le hml hs

/-! ### Chunk pipeline lemmas (for C6 / C7) -/

theorem mem_chunksOf_subset {k : Nat} (hk : 0 < k) {l g : List α}
    (hg : g ∈ chunksOf k l) : ∀ x ∈ g, x ∈ l := by
  have main : ∀ n (l g : List α), l.length ≤ n → g ∈ chunksOf k l → ∀ x ∈ g, x ∈ l := by
    intro n
    induction n with
    | zero =>
      intro l g h hg
      have : l = [] := List.eq_nil_of_length_eq_zero (Nat.le_zero.mp h)
      subst this
      simp [chunksOf_nil] at hg
    | succ n ih =>
      intro l g h hg x hx
      by_cases hl : l = []
      · subst hl; simp [chunksOf_nil] at hg
      · rw [chunksOf_cons_eq hk hl] at hg
        rcases List.mem_cons.mp hg with hg1 | hg1
        · subst hg1
          exact List.take_subset k l hx
        · exact List.drop_subset k l
            (ih (l.drop k) g (by rw [List.length_drop]; omega) hg1 x hx)
  exact main l.length l g le_rfl hg

theorem chunk_message_body {m : List Nat} {cs : Nat} (hcs : 0 < cs) (hm : m ≠ []) :
    chunk_message m cs = (chunksOf cs m).map
      (fun c => c ++ List.replicate (cs - c.length) fillerByte) := by
  have hchunks : chunksOf cs m = m.take cs :: chunksOf cs (m.drop cs) :=
    chunksOf_cons_eq hcs hm
  have hne : ((chunksOf cs m).map
      (fun c => c ++ List.replicate (cs - c.length) fillerByte)).isEmpty = false := by
    rw [hchunks]; rfl
  simp only [chunk_message, hne, Bool.false_eq_true, if_false]

theorem chunk_message_bytes {m : List Nat} {cs : Nat} (hcs : 0 < cs)
    (hbytes : ∀ x ∈ m, x < 256) :
    ∀ c ∈ chunk_message m cs, ∀ x ∈ c, x < 256 := by
  intro c hc x hx
  by_cases hm : m = []
  · subst hm
    simp only [chunk_message, chunksOf_nil, List.map_nil, List.isEmpty_nil, if_true,
      List.mem_singleton] at hc
    subst hc
    rw [List.eq_of_mem_replicate hx]
    decide
  · rw [chunk_message_body hcs hm] at hc
    rcases List.mem_map.mp hc with ⟨g, hg, rfl⟩
    rcases List.mem_append.mp hx with hx1 | hx1
    · exact hbytes x (mem_chunksOf_subset hcs hg x hx1)
    · rw [List.eq_of_mem_replicate hx1]
      decide

theorem flatten_chunk_message {m : List Nat} {cs : Nat} (hcs : 0 < cs) (hm : m ≠ []) :
    (chunk_message m cs).flatten
      = m ++ List.replicate ((cs - m.length % cs) % cs) fillerByte := by
  rw [chunk_message_body hcs hm]
  have main : ∀ n (m : List Nat), m.length ≤ n → m ≠ [] →
      ((chunksOf cs m).map
        (fun c => c ++ List.replicate (cs - c.length) fillerByte)).flatten
        = m ++ List.replicate ((cs - m.length % cs) % cs) fillerByte := by
    intro n
    induction n with
    | zero =>
      intro m h hmne
      have : m = [] := List.eq_nil_of_length_eq_zero (Nat.le_zero.mp h)
      exact absurd this hmne
    | succ n ih =>
      intro m h hmne
      rw [chunksOf_cons_eq hcs hmne, List.map_cons, List.flatten_cons]
      rcases le_or_lt m.length cs with hle | hlt
      · have htake : m.take cs = m := List.take_of_length_le hle
        have hdrop : m.drop cs = [] := List.drop_eq_nil_of_le hle
        rw [htake, hdrop, chunksOf_nil, List.map_nil, List.flatten_nil, List.append_nil]
        have hcount : cs - m.length = (cs - m.length % cs) % cs := by
          have hpos : 0 < m.length := List.length_pos.mpr hmne
          rcases Nat.lt_or_ge m.length cs with h1 | h1
          · rw [Nat.mod_eq_of_lt h1, Nat.mod_eq_of_lt (by omega)]
          · have : m.length = cs := by omega
            rw [this]
            simp
        rw [hcount]
      · have htake : (m.take cs).length = cs := by
          rw [List.length_take]
          omega
        have hpad : cs - (m.take cs).length = 0 := by omega
        rw [hpad, List.replicate_zero, List.append_nil]
        have hdne : m.drop cs ≠ [] := by
          intro hh
          have := congrArg List.length hh
          rw [List.length_drop] at this
          simp at this
          omega
        rw [ih (m.drop cs) (by rw [List.length_drop]; omega) hdne]
        rw [List.length_drop, ← List.append_assoc, List.take_append_drop]
        have hmod : (m.length - cs) % cs = m.length % cs :=
          (Nat.mod_eq_sub_mod (by omega)).symm
        rw [hmod]
  exact main m.length m le_rfl hm

theorem decodeAll_map_encode {L : List (List Nat)}
    (h : ∀ c ∈ L, ∀ x ∈ c, x < 256) :
    decodeAll (L.map encode_chunk) = some L := by
  induction L with
  | nil => rfl
  | cons c cs ih =>
    rw [List.map_cons]
    simp only [decodeAll]
    rw [decode_labels_encode_chunk (h c (by simp)),
      ih (fun d hd x hx => h d (by simp [hd]) x hx)]

theorem decode_payload_chunks_eq {L : List (List Char)} {ds : List (List Nat)}
    (h : decodeAll L = some ds) :
    decode_payload_chunks L = some (strip_padding ds.flatten) := by
  unfold decode_payload_chunks
  rw [h]

theorem strip_padding_eq (x : List Nat) :
    strip_padding x = rstripBy (fun b => b == fillerByte) x := rfl

theorem strip_padding_append_filler (x : List Nat) (k : Nat) :
    strip_padding (x ++ List.replicate k fillerByte) = strip_padding x := by
  rw [strip_padding_eq, strip_padding_eq]
  exact rstripBy_append_all x (by
    intro y hy
    rw [List.eq_of_mem_replicate hy]
    rfl)

/-! ### Claim C6 -/

/-- C6 counterexample: the demo message is 31 bytes, so chunking it with
chunk size 8 yields 4 chunks, not the 5 the claim asserts. -/
theorem c6_counterexample : (chunk_message helloMessage 8).length ≠ 5 := by decide

/-- C6 (amended): chunking the 31-byte message
`hello from nsec cache datastore` with chunk size 8 produces exactly 4
payload chunks, and decoding all chunks in index order followed by
filler stripping reproduces the original message bytes exactly. -/
theorem c6_end_to_end_amended :
    (chunk_message helloMessage 8).length = 4 ∧
    decode_payload_chunks ((chunk_message helloMessage 8).map encode_chunk)
      = some helloMessage := by
  constructor
  · decide
  · have hbytes : ∀ x ∈ helloMessage, x < 256 := by decide
    have hm : helloMessage ≠ [] := by decide
    rw [decode_payload_chunks_eq
      (decodeAll_map_encode (chunk_message_bytes (by omega) hbytes))]
    rw [flatten_chunk_message (by omega) hm, strip_padding_append_filler]
    have hsp : strip_padding helloMessage = helloMessage := by decide
    rw [hsp]

/-! ### Claim C7 -/

/-- C7: Trailing-filler ambiguity: for every non-empty message whose
final byte is the filler 0x5F and every `chunk_size > 0`, the full
pipeline (chunk, encode, decode, concatenate, strip filler) returns the
message with all trailing 0x5F bytes removed, which differs from the
original message. -/
theorem c7_trailing_filler_ambiguity (m : List Nat) (cs : Nat)
    (hm : m ≠ []) (hbytes : ∀ x ∈ m, x < 256)
    (hlast : m.getLast? = some fillerByte) (hcs : 0 < cs) :
    decode_payload_chunks ((chunk_message m cs).map encode_chunk)
        = some (strip_padding m) ∧
    strip_padding m ≠ m := by
  constructor
  · rw [decode_payload_chunks_eq
      (decodeAll_map_encode (chunk_message_bytes hcs hbytes))]
    rw [flatten_chunk_message hcs hm, strip_padding_append_filler]
  · rw [strip_padding_eq]
    exact rstripBy_ne_of_last hlast rfl

/-- Witness for C7 at the message `ab_` with chunk size 2. -/
theorem c7_trailing_filler_ambiguity_witness :
    ([97, 98, 95] ≠ ([] : List Nat) ∧ (∀ x ∈ [97, 98, 95], x < 256) ∧
      ([97, 98, 95] : List Nat).getLast? = some fillerByte ∧ 0 < 2) ∧
    (decode_payload_chunks ((chunk_message [97, 98, 95] 2).map encode_chunk)
        = some (strip_padding [97, 98, 95]) ∧
      strip_padding [97, 98, 95] ≠ [97, 98, 95]) :=
  ⟨⟨by decide, by decide, by decide, by decide⟩,
    c7_trailing_filler_ambiguity [97, 98, 95] 2 (by decide) (by decide) (by decide) (by decide)⟩

/-- Witness for C8 at the text `abcdefghij` with `max_len = 4`. -/
theorem c8_split_join_inverse_witness :
    0 < 4 ∧
      ((split_into_labels ['a','b','c','d','e','f','g','h','i','j'] 4).flatten
          = ['a','b','c','d','e','f','g','h','i','j'] ∧
       (split_into_labels ['a','b','c','d','e','f','g','h','i','j'] 4).length
          = (if ['a','b','c','d','e','f','g','h','i','j'] = [] then 0 else (10 + 4 - 1) / 4) ∧
       (∀ s ∈ split_into_labels ['a','b','c','d','e','f','g','h','i','j'] 4, s.length ≤ 4)) :=
  ⟨by decide, c8_split_join_inverse ['a','b','c','d','e','f','g','h','i','j'] 4 (by decide)⟩

/-! ### Claim C10 -/

/-- C10: Zone trailing-dot insensitivity: `node_name_for_index`,
`in_gap_name`, `verification_in_gap_name` and `parse_node_name` return
identical results whether the zone is supplied with or without a
trailing root dot. -/
theorem c10_zone_trailing_dot (index : Nat) (payload zone sfx name : List Char)
    (absolute : Bool) (variant : Nat) :
    node_name_for_index index payload (zone ++ ['.']) absolute
      = node_name_for_index index payload zone absolute ∧
    in_gap_name index (zone ++ ['.']) sfx absolute
      = in_gap_name index zone sfx absolute ∧
    verification_in_gap_name index (zone ++ ['.']) variant
      = verification_in_gap_name index zone variant ∧
    parse_node_name name (zone ++ ['.']) = parse_node_name name zone := by
  refine ⟨?_, ?_, ?_, ?_⟩
  · simp only [node_name_for_index, rstripDots_append_dot]
  · simp only [in_gap_name, rstripDots_append_dot]
  · simp only [verification_in_gap_name, in_gap_name, rstripDots_append_dot]
  · simp only [parse_node_name, rstripDots_append_dot]

/-! ### Claim C3 -/

theorem b32lower_toLower : ∀ c ∈ b32lower, Char.toLower c = c := by decide

theorem getLast?_of_ne_nil {l : List α} (h : l ≠ []) : ∃ c, l.getLast? = some c := by
  cases hl : l.getLast? with
  | none => exact absurd (List.getLast?_eq_none_iff.mp hl) h
  | some c => exact ⟨c, rfl⟩

theorem no_dot_index_label (index : Nat) : '.' ∉ 'n' :: formatIndex index := by
  intro h
  rcases List.mem_cons.mp h with h1 | h1
  · exact absurd h1.symm (by decide)
  · exact isDigit_ne_dot (formatIndex_all_isDigit index '.' h1) rfl

/-- C3: Node-name parse inverse: for every index, every valid payload
text (non-empty, lowercase base32 labels separated by single dots, no
empty labels) and every valid zone (non-empty, lowercase, no trailing
dot), parsing the generated absolute node name returns exactly the index
and the payload text. -/
theorem c3_parse_inverse (index : Nat) (payload zone : List Char)
    (hp : ValidPayload payload) (hz : ValidZone zone) :
    parse_node_name (node_name_for_index index payload zone true) zone
      = some (index, payload) := by
  obtain ⟨hzne, hzlow, hzdot⟩ := hz
  have hzr : rstripDots zone = zone :=
    rstripDots_eq_self (fun c hc hce => hzdot (by rw [hc, hce]))
  have hzl : zone.map Char.toLower = zone := map_eq_self_of_mem hzlow
  -- The generated name, flattened.
  have hname : node_name_for_index index payload zone true
      = (('n' :: formatIndex index) ++ ('.' :: payload) ++ ('.' :: zone)) ++ ['.'] := by
    simp [node_name_for_index, hzr, List.cons_append, List.append_assoc]
  set stem := ('n' :: formatIndex index) ++ ('.' :: payload) with hstem
  -- The last character of the dotless body is the zone's last character.
  obtain ⟨zc, hzc⟩ := getLast?_of_ne_nil hzne
  have hzcdot : zc ≠ '.' := fun hh => hzdot (by rw [hzc, hh])
  have hlast : (stem ++ ('.' :: zone)).getLast? = some zc := by
    rw [List.getLast?_append]
    have h1 : ('.' :: zone).getLast? = some zc := by
      have : ('.' :: zone) = ['.'] ++ zone := rfl
      rw [this, List.getLast?_append, hzc]
      rfl
    rw [h1]
    rfl
  have hrstrip : rstripDots ((stem ++ ('.' :: zone)) ++ ['.']) = stem ++ ('.' :: zone) := by
    rw [rstripDots_append_dot]
    exact rstripDots_eq_self (fun c hc hce => by
      rw [hlast, Option.some_inj] at hc
      exact hzcdot (hc.trans hce))
  -- Lowercasing the body is the identity.
  have hpayload_chars : ∀ c ∈ payload, c = '.' ∨ c ∈ b32lower := by
    apply chars_of_splitOnDot
    intro g hg c hc
    exact (hp.2 g hg).2 c hc
  have hlow : (stem ++ ('.' :: zone)).map Char.toLower = stem ++ ('.' :: zone) := by
    apply map_eq_self_of_mem
    intro c hc
    rcases List.mem_append.mp hc with hc1 | hc1
    · rw [hstem] at hc1
      rcases List.mem_append.mp hc1 with hc2 | hc2
      · rcases List.mem_cons.mp hc2 with hc3 | hc3
        · subst hc3; decide
        · exact isDigit_toLower (formatIndex_all_isDigit index c hc3)
      · rcases List.mem_cons.mp hc2 with hc3 | hc3
        · subst hc3; decide
        · rcases hpayload_chars c hc3 with hc4 | hc4
          · subst hc4; decide
          · exact b32lower_toLower c hc4
    · rcases List.mem_cons.mp hc1 with hc2 | hc2
      · subst hc2; decide
      · exact hzlow c hc2
  -- Evaluate the parser.
  simp only [parse_node_name, hname, hrstrip, hlow, hzr, hzl]
  have hsuffix : ('.' :: zone).isSuffixOf (stem ++ ('.' :: zone)) = true :=
    isSuffixOf_append_self stem ('.' :: zone)
  rw [if_pos hsuffix]
  have htake : (stem ++ ('.' :: zone)).take
      ((stem ++ ('.' :: zone)).length - ('.' :: zone).length) = stem :=
    take_append_sub stem ('.' :: zone)
  rw [htake]
  obtain ⟨q, qs, hq⟩ := exists_splitOnDot_cons payload
  have hsplit : splitOnDot stem = ('n' :: formatIndex index) :: q :: qs := by
    rw [hstem, splitOnDot_append_dot payload (no_dot_index_label index), hq]
  have hne' : ¬ (formatIndex index = []) := formatIndex_ne_nil index
  have hall : (formatIndex index).all Char.isDigit = true :=
    List.all_eq_true.mpr (formatIndex_all_isDigit index)
  have hjoin : joinDots (q :: qs) = payload := by
    rw [← hq, joinDots_splitOnDot]
  simp only [hsplit, hall, hne', digitsToNat_formatIndex, hjoin, ne_eq,
    not_false_eq_true, and_self, and_true, true_and, if_true]

/-- Witness for C3 at index 3, payload `nbswy3dp`, zone `zone.test`. -/
theorem c3_parse_inverse_witness :
    (ValidPayload ['n','b','s','w','y','3','d','p'] ∧ ValidZone zoneTest) ∧
    parse_node_name
        (node_name_for_index 3 ['n','b','s','w','y','3','d','p'] zoneTest true) zoneTest
      = some (3, ['n','b','s','w','y','3','d','p']) :=
  ⟨⟨⟨by decide, by decide⟩, ⟨by decide, by decide, by decide⟩⟩,
    c3_parse_inverse 3 ['n','b','s','w','y','3','d','p'] zoneTest
      ⟨by decide, by decide⟩ ⟨by decide, by decide, by decide⟩⟩

/-! ### Claim C9 -/

theorem isSuffixOf_nil_left (l : List Char) : ([] : List Char).isSuffixOf l = true :=
  List.isSuffixOf_iff_suffix.mpr List.nil_suffix

theorem singleton_suffix_getLast {x : Char} {l : List Char}
    (h : ([x]).isSuffixOf l = true) : l.getLast? = some x := by
  obtain ⟨t, ht⟩ := List.isSuffixOf_iff_suffix.mp h
  rw [← ht]
  exact List.getLast?_concat t

/-- C9 counterexample: with the single-character suffix `.` the in-gap
name `n0000..zone.test.` parses as a payload node `(0, "")`, so the
claim fails for that suffix. -/
theorem c9_counterexample :
    parse_node_name (in_gap_name 0 zoneTest ['.'] true) zoneTest = some (0, []) ∧
    extract_payload_from_next_name (in_gap_name 0 zoneTest ['.'] true) zoneTest
      = some [] := by decide

/-- C9 (amended): for every index, every zone, and every single-character
suffix other than `.` (in particular `z` and all ten verification
suffixes), the in-gap name has exactly one label before the zone, so
`parse_node_name` and `extract_payload_from_next_name` both return
`none` on it. -/
theorem c9_gap_names_not_payload (index : Nat) (zone : List Char) (c : Char)
    (hc : c ≠ '.') :
    parse_node_name (in_gap_name index zone [c] true) zone = none ∧
    extract_payload_from_next_name (in_gap_name index zone [c] true) zone = none := by
  have hlcdot : Char.toLower c ≠ '.' := fun hh => hc ((toLower_eq_dot_iff c).mp hh)
  have hgap : in_gap_name index zone [c] true
      = ((('n' :: formatIndex index) ++ [c]) ++ ('.' :: rstripDots zone)) ++ ['.'] := by
    simp [in_gap_name, List.cons_append, List.append_assoc]
  set A := ('n' :: formatIndex index) ++ [c] with hA
  have hAlast : A.getLast? = some c := List.getLast?_concat _
  have hAlow : A.map Char.toLower = ('n' :: formatIndex index) ++ [Char.toLower c] := by
    rw [hA, List.map_append]
    congr 1
    apply map_eq_self_of_mem
    intro x hx
    rcases List.mem_cons.mp hx with hx1 | hx1
    · subst hx1; decide
    · exact isDigit_toLower (formatIndex_all_isDigit index x hx1)
  set B := ('n' :: formatIndex index) ++ [Char.toLower c] with hB
  have hBlast : B.getLast? = some (Char.toLower c) := List.getLast?_concat _
  have hBhead : B.head? = some 'n' := by rw [hB]; rfl
  have hBnodot : '.' ∉ B := by
    intro hmem
    rw [hB] at hmem
    rcases List.mem_append.mp hmem with h1 | h1
    · exact no_dot_index_label index h1
    · rw [List.mem_singleton] at h1
      exact hlcdot h1.symm
  have hBsplit : splitOnDot B = [B] := splitOnDot_of_no_dot hBnodot
  have hz'last : ∀ d, (rstripDots zone).getLast? = some d → d ≠ '.' :=
    fun d hd => getLast?_rstripDots hd
  by_cases hz : rstripDots zone = []
  · -- Empty normalized zone: the dot-stripped gap name is the bare label.
    have hstrip : rstripDots (in_gap_name index zone [c] true) = A := by
      rw [hgap, hz]
      have h1 : (A ++ ('.' :: ([] : List Char))) ++ ['.'] = (A ++ ['.']) ++ ['.'] := by
        simp
      rw [h1, rstripDots_append_dot, rstripDots_append_dot]
      exact rstripDots_eq_self (fun d hd hde => by
        rw [hAlast, Option.some_inj] at hd
        exact hc (hd.trans hde))
    constructor
    · simp only [parse_node_name, hstrip, hAlow, ← hB, hz, List.map_nil]
      rw [if_neg (by
        intro hsuf
        have := singleton_suffix_getLast hsuf
        rw [hBlast, Option.some_inj] at this
        exact hlcdot this)]
    · have hlowgap : (in_gap_name index zone [c] true).map Char.toLower
          = (B ++ ['.']) ++ ['.'] := by
        rw [hgap, hz]
        simp only [List.map_append, List.map_cons, List.map_nil, hAlow, ← hB]
        rfl
      have hstrip2 : rstripDots ((in_gap_name index zone [c] true).map Char.toLower)
          = B := by
        rw [hlowgap, rstripDots_append_dot, rstripDots_append_dot]
        exact rstripDots_eq_self (fun d hd hde => by
          rw [hBlast, Option.some_inj] at hd
          exact hlcdot (hd.trans hde))
      have hz2 : rstripDots (zone.map Char.toLower) = [] := by
        rw [← map_toLower_rstripDots, hz]
        rfl
      simp only [extract_payload_from_next_name, hstrip2, hz2]
      rw [if_pos (isSuffixOf_nil_left B)]
      rw [if_neg (by
        intro hsuf
        have := singleton_suffix_getLast hsuf
        rw [hBlast, Option.some_inj] at this
        exact hlcdot this)]
      simp only [hBsplit, hBhead, if_pos, List.length_singleton]
      rfl
  · -- Non-empty normalized zone: a single label sits before the zone suffix.
    obtain ⟨zc, hzc⟩ := getLast?_of_ne_nil hz
    have hzcdot : zc ≠ '.' := hz'last zc hzc
    have hstrip : rstripDots (in_gap_name index zone [c] true)
        = A ++ ('.' :: rstripDots zone) := by
      rw [hgap, rstripDots_append_dot]
      apply rstripDots_eq_self
      intro d hd hde
      rw [List.getLast?_append] at hd
      have h1 : ('.' :: rstripDots zone).getLast? = some zc := by
        have h2 : ('.' :: rstripDots zone) = ['.'] ++ rstripDots zone := rfl
        rw [h2, List.getLast?_append, hzc]
        rfl
      rw [h1] at hd
      simp only [Option.or_some, Option.some_inj] at hd
      exact hzcdot (hd.trans hde)
    have hlow : (A ++ ('.' :: rstripDots zone)).map Char.toLower
        = B ++ ('.' :: (rstripDots zone).map Char.toLower) := by
      rw [List.map_append, hAlow]
      rfl
    constructor
    · simp only [parse_node_name, hstrip, hlow]
      have hsuffix : ('.' :: (rstripDots zone).map Char.toLower).isSuffixOf
          (B ++ ('.' :: (rstripDots zone).map Char.toLower)) = true :=
        isSuffixOf_append_self B _
      rw [if_pos hsuffix]
      rw [take_append_sub B ('.' :: (rstripDots zone).map Char.toLower)]
      rw [hBsplit]
    · have hlowgap : (in_gap_name index zone [c] true).map Char.toLower
          = (B ++ ('.' :: (rstripDots zone).map Char.toLower)) ++ ['.'] := by
        rw [hgap]
        simp only [List.map_append, hlow]
        rfl
      have hzm : rstripDots (zone.map Char.toLower)
          = (rstripDots zone).map Char.toLower := (map_toLower_rstripDots zone).symm
      have hmaplast : ((rstripDots zone).map Char.toLower).getLast?
          = some (Char.toLower zc) := by
        rw [List.getLast?_eq_head?_reverse, ← List.map_reverse, List.head?_map,
          ← List.getLast?_eq_head?_reverse, hzc]
        rfl
      have hstrip2 : rstripDots ((in_gap_name index zone [c] true).map Char.toLower)
          = B ++ ('.' :: (rstripDots zone).map Char.toLower) := by
        rw [hlowgap, rstripDots_append_dot]
        apply rstripDots_eq_self
        intro d hd hde
        rw [List.getLast?_append] at hd
        have h1 : ('.' :: (rstripDots zone).map Char.toLower).getLast?
            = some (Char.toLower zc) := by
          have h2 : ('.' :: (rstripDots zone).map Char.toLower)
              = ['.'] ++ (rstripDots zone).map Char.toLower := rfl
          rw [h2, List.getLast?_append, hmaplast]
          rfl
        rw [h1] at hd
        simp only [Option.or_some, Option.some_inj] at hd
        have : zc = '.' := (toLower_eq_dot_iff zc).mp (hd.trans hde)
        exact hzcdot this
      simp only [extract_payload_from_next_name, hstrip2, hzm]
      have hsuffix2 : ((rstripDots zone).map Char.toLower).isSuffixOf
          (B ++ ('.' :: (rstripDots zone).map Char.toLower)) = true := by
        apply List.isSuffixOf_iff_suffix.mpr
        exact ⟨B ++ ['.'], by simp⟩
      rw [if_pos hsuffix2]
      have hsuffix3 : ('.' :: (rstripDots zone).map Char.toLower).isSuffixOf
          (B ++ ('.' :: (rstripDots zone).map Char.toLower)) = true :=
        isSuffixOf_append_self B _
      rw [if_pos hsuffix3]
      have htake : (B ++ ('.' :: (rstripDots zone).map Char.toLower)).take
          ((B ++ ('.' :: (rstripDots zone).map Char.toLower)).length
            - (((rstripDots zone).map Char.toLower).length + 1)) = B := by
        have h1 : ((rstripDots zone).map Char.toLower).length + 1
            = ('.' :: (rstripDots zone).map Char.toLower).length := by
          rw [List.length_cons]
        rw [h1]
        exact take_append_sub B _
      rw [htake, hBsplit]
      simp only [hBhead, if_pos, List.length_singleton]
      rfl

/-- Witness for C9 with suffix `z` at index 0, zone `zone.test`. -/
theorem c9_gap_names_not_payload_witness :
    ('z' ≠ '.') ∧
    (parse_node_name (in_gap_name 0 zoneTest ['z'] true) zoneTest = none ∧
      extract_payload_from_next_name (in_gap_name 0 zoneTest ['z'] true) zoneTest = none) :=
  ⟨by decide, c9_gap_names_not_payload 0 zoneTest 'z' (by decide)⟩

/-! ### Claim C2 -/

theorem rstripDots_append_cases (X t : List Char)
    (hX : ∀ d, X.getLast? = some d → d ≠ '.') :
    rstripDots (X ++ t) = X ++ rstripDots t ∨ rstripDots (X ++ t) = X := by
  by_cases h : rstripDots t = []
  · right
    unfold rstripDots at h ⊢
    rw [rstripBy_append_of_nil X h]
    exact rstripDots_eq_self hX
  · left
    exact rstripBy_append_of_ne_nil X h

theorem map_toLower_nfmt (i : Nat) :
    ('n' :: formatIndex i).map Char.toLower = 'n' :: formatIndex i := by
  apply map_eq_self_of_mem
  intro x hx
  rcases List.mem_cons.mp hx with h1 | h1
  · subst h1; decide
  · exact isDigit_toLower (formatIndex_all_isDigit i x h1)

theorem nfmt_last_ne_dot (i : Nat) : ∀ d, ('n' :: formatIndex i).getLast? = some d →
    d ≠ '.' := by
  intro d hd
  have hmem : d ∈ 'n' :: formatIndex i := List.mem_of_mem_getLast? hd
  intro hde
  subst hde
  exact no_dot_index_label i hmem

/-- Normal form of an in-gap name under `is_name_between`'s folding. -/
theorem norm_in_gap (index : Nat) (zone : List Char) (c : Char)
    (hlow : Char.toLower c = c) (hdot : c ≠ '.') :
    ∃ r, rstripDots ((in_gap_name index zone [c] true).map Char.toLower)
      = ('n' :: formatIndex index) ++ (c :: r) := by
  have hgap : in_gap_name index zone [c] true
      = ((('n' :: formatIndex index) ++ [c]) ++ ('.' :: rstripDots zone)) ++ ['.'] := by
    simp [in_gap_name, List.cons_append, List.append_assoc]
  rw [hgap]
  rw [List.map_append, List.map_append, List.map_append, map_toLower_nfmt]
  have hc1 : [c].map Char.toLower = [c] := by rw [List.map_cons, hlow]; rfl
  have hc2 : (['.'] : List Char).map Char.toLower = ['.'] := by decide
  rw [hc1, hc2, List.map_cons]
  have hc3 : Char.toLower '.' = '.' := by decide
  rw [hc3, rstripDots_append_dot]
  have hXlast : ∀ d, (('n' :: formatIndex index) ++ [c]).getLast? = some d → d ≠ '.' := by
    intro d hd hde
    rw [List.getLast?_concat, Option.some_inj] at hd
    exact hdot (hd.symm ▸ hde)
  rcases rstripDots_append_cases (('n' :: formatIndex index) ++ [c])
      ('.' :: (rstripDots zone).map Char.toLower) hXlast with hcase | hcase
  · exact ⟨_, by rw [hcase, List.append_assoc]; rfl⟩
  · exact ⟨[], by rw [hcase]⟩

/-- Normal form of the lower node name (payload `2`). -/
theorem norm_lower_node (index : Nat) (zone : List Char) :
    ∃ r, rstripDots ((node_name_for_index index ['2'] zone true).map Char.toLower)
      = ('n' :: formatIndex index) ++ ('.' :: r) := by
  have hname : node_name_for_index index ['2'] zone true
      = ((('n' :: formatIndex index) ++ ['.', '2']) ++ ('.' :: rstripDots zone)) ++ ['.'] := by
    simp [node_name_for_index, List.cons_append, List.append_assoc]
  rw [hname]
  rw [List.map_append, List.map_append, List.map_append, map_toLower_nfmt]
  have hc1 : (['.', '2'] : List Char).map Char.toLower = ['.', '2'] := by decide
  have hc2 : (['.'] : List Char).map Char.toLower = ['.'] := by decide
  rw [hc1, hc2, List.map_cons]
  have hc3 : Char.toLower '.' = '.' := by decide
  rw [hc3, rstripDots_append_dot]
  have hXlast : ∀ d, (('n' :: formatIndex index) ++ ['.', '2']).getLast? = some d →
      d ≠ '.' := by
    intro d hd hde
    have : (('n' :: formatIndex index) ++ ['.', '2']).getLast?
        = some '2' := by
      rw [List.getLast?_append]
      rfl
    rw [this, Option.some_inj] at hd
    rw [← hd] at hde
    exact absurd hde (by decide)
  rcases rstripDots_append_cases (('n' :: formatIndex index) ++ ['.', '2'])
      ('.' :: (rstripDots zone).map Char.toLower) hXlast with hcase | hcase
  · refine ⟨'2' :: rstripDots ('.' :: (rstripDots zone).map Char.toLower), ?_⟩
    rw [hcase, List.append_assoc]
    rfl
  · refine ⟨['2'], ?_⟩
    rw [hcase]

/-- Normal form of the upper node name (arbitrary payload). -/
theorem norm_upper_node (index : Nat) (zone pay : List Char) :
    ∃ r, rstripDots ((node_name_for_index index pay zone true).map Char.toLower)
      = ('n' :: formatIndex index) ++ r := by
  have hname : node_name_for_index index pay zone true
      = (('n' :: formatIndex index) ++ ('.' :: (pay ++ ('.' :: rstripDots zone)))) ++ ['.'] := by
    simp [node_name_for_index, List.cons_append, List.append_assoc]
  rw [hname]
  rw [List.map_append, List.map_append, map_toLower_nfmt]
  have hc2 : (['.'] : List Char).map Char.toLower = ['.'] := by decide
  rw [hc2, rstripDots_append_dot]
  rcases rstripDots_append_cases ('n' :: formatIndex index)
      (('.' :: (pay ++ ('.' :: rstripDots zone))).map Char.toLower)
      (nfmt_last_ne_dot index) with hcase | hcase
  · exact ⟨_, hcase⟩
  · exact ⟨[], by rw [hcase, List.append_nil]⟩

theorem in_gap_suffix_inj {index : Nat} {zone : List Char} {c c' : Char}
    (h : in_gap_name index zone [c] true = in_gap_name index zone [c'] true) :
    c = c' := by
  have h1 : ((('n' :: formatIndex index) ++ [c]) ++ (('.' :: rstripDots zone) ++ ['.']))
      = ((('n' :: formatIndex index) ++ [c']) ++ (('.' :: rstripDots zone) ++ ['.'])) := by
    have hg : ∀ d : Char, in_gap_name index zone [d] true
        = (('n' :: formatIndex index) ++ [d]) ++ (('.' :: rstripDots zone) ++ ['.']) := by
      intro d
      simp [in_gap_name, List.cons_append, List.append_assoc]
    rw [← hg c, ← hg c', h]
  have h2 : ('n' :: formatIndex index) ++ [c] = ('n' :: formatIndex index) ++ [c'] :=
    List.append_cancel_right h1
  have h3 : [c] = [c'] := List.append_cancel_left h2
  simpa using h3

theorem gapSuffixChars_facts :
    ∀ c ∈ gapSuffixChars, Char.toLower c = c ∧ 46 < c.toNat ∧ c ≠ '.' := by
  decide

theorem gapNames_eq (index : Nat) (zone : List Char) :
    gapNames index zone
      = gapSuffixChars.map (fun c => in_gap_name index zone [c] true) := rfl

/-- C2 counterexample: at index 9999 the next index is formatted with
five digits, so the priming gap name `n9999z...` sorts after
`n10000...` and the interval placement fails. -/
theorem c2_counterexample :
    is_name_between (in_gap_name 9999 zoneTest ['z'] true)
      (node_name_for_index 9999 ['2'] zoneTest true)
      (node_name_for_index 10000 ['2'] zoneTest true) = false := by decide

/-- C2 (amended): for every index with `index + 1 < 10000` and every
zone, the 11 gap names (priming `z` plus the ten verification variants)
are pairwise distinct, and each sorts strictly between the index's node
name with the minimal payload label `2` and the next index's node name
with any payload, under `is_name_between`. -/
theorem c2_in_gap_disjoint_and_between (index : Nat) (zone pay : List Char)
    (h : index + 1 < 10000) :
    (gapNames index zone).Nodup ∧ (gapNames index zone).length = 11 ∧
    ∀ g ∈ gapNames index zone,
      is_name_between g (node_name_for_index index ['2'] zone true)
        (node_name_for_index (index + 1) pay zone true) = true := by
  refine ⟨?_, ?_, ?_⟩
  · rw [gapNames_eq]
    apply List.Nodup.map_on
    · intro x _ y _ hxy
      exact in_gap_suffix_inj hxy
    · decide
  · rw [gapNames_eq, List.length_map]
    rfl
  · intro g hg
    rw [gapNames_eq] at hg
    rcases List.mem_map.mp hg with ⟨c, hc, rfl⟩
    obtain ⟨hlow, hgt, hdot⟩ := gapSuffixChars_facts c hc
    obtain ⟨rg, hng⟩ := norm_in_gap index zone c hlow hdot
    obtain ⟨rl, hnl⟩ := norm_lower_node index zone
    obtain ⟨ru, hnu⟩ := norm_upper_node (index + 1) zone pay
    simp only [is_name_between]
    rw [hng, hnl, hnu]
    have hlt1 : strLt (('n' :: formatIndex index) ++ ('.' :: rl))
        (('n' :: formatIndex index) ++ (c :: rg)) = true := by
      rw [strLt_append_left]
      exact strLt_cons_of_lt rl rg (by
        have : ('.' : Char).toNat = 46 := by decide
        omega)
    have hlt2 : strLt (('n' :: formatIndex index) ++ (c :: rg))
        (('n' :: formatIndex (index + 1)) ++ ru) = true := by
      have hsplit1 : ('n' :: formatIndex index) ++ (c :: rg)
          = 'n' :: (formatIndex index ++ (c :: rg)) := by simp
      have hsplit2 : ('n' :: formatIndex (index + 1)) ++ ru
          = 'n' :: (formatIndex (index + 1) ++ ru) := by simp
      rw [hsplit1, hsplit2]
      have hcons : ∀ x y : List Char, strLt ('n' :: x) ('n' :: y) = strLt x y := by
        intro x y
        have : ('n' :: x) = ['n'] ++ x := rfl
        have h2 : ('n' :: y) = ['n'] ++ y := rfl
        rw [this, h2, strLt_append_left]
      rw [hcons]
      have hlen : (formatIndex index).length = (formatIndex (index + 1)).length := by
        rw [formatIndex_length4 (by omega), formatIndex_length4 (by omega)]
      have hne : formatIndex index ≠ formatIndex (index + 1) := by
        intro heq
        have := formatIndex_inj heq
        omega
      rw [strLt_append_of_ne _ _ hlen hne]
      exact formatIndex_strLt (by omega) (by omega)
    rw [hlt1, hlt2]
    rfl

/-- Witness for C2 at index 0, zone `zone.test`, upper payload `2`. -/
theorem c2_in_gap_disjoint_and_between_witness :
    (0 + 1 < 10000) ∧
    ((gapNames 0 zoneTest).Nodup ∧ (gapNames 0 zoneTest).length = 11 ∧
      ∀ g ∈ gapNames 0 zoneTest,
        is_name_between g (node_name_for_index 0 ['2'] zoneTest true)
          (node_name_for_index (0 + 1) ['2'] zoneTest true) = true) :=
  ⟨by decide, c2_in_gap_disjoint_and_between 0 zoneTest ['2'] (by decide)⟩

/-! ### Claim C5 -/

theorem extract_eval (name zone : List Char) :
    extract_payload_from_next_name name zone =
      (if (normName zone).isSuffixOf (normName name) = true then
        (match splitOnDot
            (if ('.' :: normName zone).isSuffixOf (normName name) = true
              then (normName name).take
                ((normName name).length - ((normName zone).length + 1))
              else normName name) with
         | l0 :: rest =>
            if l0.head? = some 'n' then
              if (l0 :: rest).length < 2 then none else some (joinDots rest)
            else none
         | [] => none)
      else none) := rfl

/-- C5 counterexample: `nzone.test.` does not end with `zone.test` as a
dot-separated suffix, yet the extractor returns `test` instead of
`none`, because the zone-suffix test is a character-level `endswith`. -/
theorem c5_counterexample :
    ('.' :: normName zoneTest).isSuffixOf (normName nzoneName) = false ∧
    extract_payload_from_next_name nzoneName zoneTest = some ['t','e','s','t'] := by
  decide

/-- C5 (amended): `extract_payload_from_next_name name zone = some p`
exactly when the case-folded dot-stripped name splits as at least two
dot-free labels (optionally followed by the dot-separated zone suffix,
which is stripped; otherwise the zone need only be a character-level
suffix of the name), the first label starts with `n`, and `p` joins the
remaining labels; on every other input the extractor returns `none`,
and it never raises an error. -/
theorem c5_extract_characterization (name zone p : List Char) :
    extract_payload_from_next_name name zone = some p ↔
      ∃ l0 l1 rest, ('.' ∉ l0) ∧ ('.' ∉ l1) ∧ (∀ l ∈ rest, '.' ∉ l) ∧
        l0.head? = some 'n' ∧ p = joinDots (l1 :: rest) ∧
        ((('.' :: normName zone).isSuffixOf (normName name) = true ∧
            normName name = joinDots (l0 :: l1 :: rest) ++ ('.' :: normName zone)) ∨
         (('.' :: normName zone).isSuffixOf (normName name) = false ∧
            (normName zone).isSuffixOf (normName name) = true ∧
            normName name = joinDots (l0 :: l1 :: rest))) := by
  constructor
  · intro he
    rw [extract_eval] at he
    by_cases h1 : (normName zone).isSuffixOf (normName name) = true
    · rw [if_pos h1] at he
      by_cases h2 : ('.' :: normName zone).isSuffixOf (normName name) = true
      · rw [if_pos h2] at he
        obtain ⟨t, ht⟩ := List.isSuffixOf_iff_suffix.mp h2
        have hpre : (normName name).take
            ((normName name).length - ((normName zone).length + 1)) = t := by
          have hlen : ('.' :: normName zone).length = (normName zone).length + 1 :=
            List.length_cons '.' (normName zone)
          rw [← ht, ← hlen]
          exact take_append_sub t ('.' :: normName zone)
        rw [hpre] at he
        obtain ⟨l0, rest0, hs⟩ := exists_splitOnDot_cons t
        rw [hs] at he
        dsimp only at he
        by_cases h3 : l0.head? = some 'n'
        · rw [if_pos h3] at he
          by_cases h4 : (l0 :: rest0).length < 2
          · rw [if_pos h4] at he
            exact absurd he (by simp)
          · rw [if_neg h4] at he
            cases rest0 with
            | nil => simp at h4
            | cons l1 rest =>
              refine ⟨l0, l1, rest,
                no_dot_of_mem_splitOnDot (g := l0) (by rw [hs]; simp),
                no_dot_of_mem_splitOnDot (g := l1) (by rw [hs]; simp),
                fun l hl => no_dot_of_mem_splitOnDot (g := l) (by rw [hs]; simp [hl]),
                h3, (Option.some_inj.mp he).symm, Or.inl ⟨h2, ?_⟩⟩
              rw [← hs, joinDots_splitOnDot, ht]
        · rw [if_neg h3] at he
          exact absurd he (by simp)
      · rw [if_neg h2] at he
        obtain ⟨l0, rest0, hs⟩ := exists_splitOnDot_cons (normName name)
        rw [hs] at he
        dsimp only at he
        by_cases h3 : l0.head? = some 'n'
        · rw [if_pos h3] at he
          by_cases h4 : (l0 :: rest0).length < 2
          · rw [if_pos h4] at he
            exact absurd he (by simp)
          · rw [if_neg h4] at he
            cases rest0 with
            | nil => simp at h4
            | cons l1 rest =>
              refine ⟨l0, l1, rest,
                no_dot_of_mem_splitOnDot (g := l0) (by rw [hs]; simp),
                no_dot_of_mem_splitOnDot (g := l1) (by rw [hs]; simp),
                fun l hl => no_dot_of_mem_splitOnDot (g := l) (by rw [hs]; simp [hl]),
                h3, (Option.some_inj.mp he).symm,
                Or.inr ⟨Bool.eq_false_iff.mpr (fun hh => h2 hh), h1, ?_⟩⟩
              rw [← hs, joinDots_splitOnDot]
        · rw [if_neg h3] at he
          exact absurd he (by simp)
    · rw [if_neg h1] at he
      exact absurd he (by simp)
  · rintro ⟨l0, l1, rest, hd0, hd1, hdr, hhead, hp, hcase⟩
    have hdots : ∀ l ∈ l0 :: l1 :: rest, '.' ∉ l := by
      intro l hl
      rcases List.mem_cons.mp hl with h | h
      · subst h; exact hd0
      · rcases List.mem_cons.mp h with h' | h'
        · subst h'; exact hd1
        · exact hdr l h'
    have hlen2 : ¬ ((l0 :: l1 :: rest).length < 2) := by
      simp only [List.length_cons]
      omega
    rw [extract_eval]
    rcases hcase with ⟨h2, hn⟩ | ⟨h2, h1, hn⟩
    · have h1 : (normName zone).isSuffixOf (normName name) = true := by
        apply List.isSuffixOf_iff_suffix.mpr
        refine ⟨joinDots (l0 :: l1 :: rest) ++ ['.'], ?_⟩
        rw [hn, List.append_assoc]
        rfl
      rw [if_pos h1, if_pos h2]
      have hpre : (normName name).take
          ((normName name).length - ((normName zone).length + 1))
          = joinDots (l0 :: l1 :: rest) := by
        have hlen : ('.' :: normName zone).length = (normName zone).length + 1 :=
          List.length_cons '.' (normName zone)
        rw [hn, ← hlen]
        exact take_append_sub _ ('.' :: normName zone)
      rw [hpre, splitOnDot_joinDots (by simp) hdots]
      dsimp only
      rw [if_pos hhead, if_neg hlen2, hp]
    · have h2' : ¬ (('.' :: normName zone).isSuffixOf (normName name) = true) := by
        rw [h2]
        simp
      rw [if_pos h1, if_neg h2']
      rw [hn, splitOnDot_joinDots (by simp) hdots]
      dsimp only
      rw [if_pos hhead, if_neg hlen2, hp]

end NsecChain
